import Mathlib

/-!
Verification development for the Inspector-Diffon operation-protocol engine.

The engine consists of a protocol parser (`OperationsParser.parse` in
`src/extension.ts`), an operation executor (`OperationsExecutor` in
`src/extension.ts`), and a task ledger (`TaskManager` in
`src/taskManager.ts`, Inspector-Diff-lfirst variant, the one with
`includedFiles`).  Strings are modelled as `List Char`; the file system as an
association list from resolved path segments to contents; asynchronous
VS Code UI calls (progress notification, warning prompts, terminal) are
modelled by explicit boolean parameters where their answer is read, and
ignored where the source ignores them.

The five parser regexes are compiled by hand into backtracking matchers with
JavaScript semantics: a lazy `[\s\S]*?` up to a literal takes the first
occurrence (equivalent to full backtracking here because every such group is
followed only by further literal-terminated lazy groups, whose failure is
monotone in the suffix); the lazy `(.+?)` groups and greedy `\s*` groups are
given genuine backtracking via continuations, since their later alternatives
can succeed where earlier ones fail.
-/

set_option linter.unusedSectionVars false
set_option linter.unnecessarySimpa false

namespace InspectorDiffon

/-- Decidable list-prefix test, used both for character strings and for
path-segment lists. -/
def beginsWith {α : Type} [DecidableEq α] : List α → List α → Bool
  | [], _ => true
  | _ :: _, [] => false
  | a :: as, b :: bs => a = b && beginsWith as bs

/-- Consume a literal at the head of the input, JavaScript literal matching. -/
def dropLit {α : Type} [DecidableEq α] : List α → List α → Option (List α)
  | [], s => some s
  | _ :: _, [] => none
  | a :: as, b :: bs => if a = b then dropLit as bs else none

/-- Substring occurrence test, `String.prototype.includes`. -/
def containsLit {α : Type} [DecidableEq α] (lit : List α) : List α → Bool
  | [] => beginsWith lit []
  | c :: rest => beginsWith lit (c :: rest) || containsLit lit rest

/-- The JavaScript `\s` class, restricted to its ASCII members (the source
only ever meets ASCII whitespace in the markers it handles). -/
def wsChar (c : Char) : Bool :=
  c = ' ' || c = '\t' || c = '\n' || c = '\r' ||
  c = Char.ofNat 11 || c = Char.ofNat 12

/-- `String.prototype.trim`: strip whitespace from both ends. -/
def trimL (s : List Char) : List Char :=
  ((s.dropWhile wsChar).reverse.dropWhile wsChar).reverse

/-- The piece of `s` before the first occurrence of `sep`, and the remainder
after that occurrence (`none` when `sep` does not occur).  Leftmost-first,
the occurrence order of `String.prototype.split`. -/
def breakOn {α : Type} [DecidableEq α] (sep : List α) :
    List α → List α × Option (List α)
  | [] => ([], none)
  | c :: rest =>
    if beginsWith sep (c :: rest) then
      ([], some ((dropLit sep (c :: rest)).getD []))
    else
      let q := breakOn sep rest
      (c :: q.1, q.2)

/-- Fuelled worker for `splitAll`; each recursive call consumes one
occurrence of the separator, so `s.length + 1` fuel always suffices. -/
def splitAllF {α : Type} [DecidableEq α] (sep : List α) :
    Nat → List α → List (List α)
  | 0, s => [s]
  | fuel + 1, s =>
    match breakOn sep s with
    | (p, none) => [p]
    | (p, some r) => p :: splitAllF sep fuel r

/-- `s.split(sep)` for a nonempty separator: pieces between leftmost,
non-overlapping occurrences of `sep`.  (The source never calls `split` with
an empty separator: `searchReplace` rejects an empty search string first; in
that unreachable case we return `[s]`.) -/
def splitAll {α : Type} [DecidableEq α] (sep s : List α) : List (List α) :=
  if sep = [] then [s] else splitAllF sep (s.length + 1) s

/-- `pieces.join(sep)`, `Array.prototype.join`. -/
def joinWith {α : Type} (sep : List α) : List (List α) → List α
  | [] => []
  | [p] => p
  | p :: ps => p ++ sep ++ joinWith sep ps

/-- `s.split(search).join(replace)`: replace every leftmost, non-overlapping
occurrence of `search` by `replace`. -/
def replaceAllL {α : Type} [DecidableEq α] (s search repl : List α) : List α :=
  joinWith repl (splitAll search s)

/-! ## The parsed operation type

`FileOperation` from `src/extension.ts`: a `type` discriminator plus optional
fields, exactly the fields each parser branch fills in. -/

inductive OpType : Type
  | create | delete | rename | searchReplace | overwrite
  deriving DecidableEq, Repr

structure FileOperation : Type where
  type : OpType
  file : Option (List Char) := none
  from_ : Option (List Char) := none
  to_ : Option (List Char) := none
  search : Option (List Char) := none
  replace : Option (List Char) := none
  content : Option (List Char) := none
  deriving DecidableEq, Repr

/-! ## Hand-compiled regex matchers

Marker literals shared by the five regexes. -/

def createMark : List Char :=          -- "<<<CREATE:"
  ['<', '<', '<', 'C', 'R', 'E', 'A', 'T', 'E', ':']
def deleteMark : List Char :=          -- "<<<DELETE:"
  ['<', '<', '<', 'D', 'E', 'L', 'E', 'T', 'E', ':']
def renameMark : List Char :=          -- "<<<RENAME:"
  ['<', '<', '<', 'R', 'E', 'N', 'A', 'M', 'E', ':']
def fileMark : List Char :=            -- "<<<FILE:"
  ['<', '<', '<', 'F', 'I', 'L', 'E', ':']
def searchMark : List Char :=          -- "<<<SEARCH>>>"
  ['<', '<', '<', 'S', 'E', 'A', 'R', 'C', 'H', '>', '>', '>']
def replaceMark : List Char :=         -- "<<<REPLACE>>>"
  ['<', '<', '<', 'R', 'E', 'P', 'L', 'A', 'C', 'E', '>', '>', '>']
def endMark : List Char :=             -- "<<<END>>>"
  ['<', '<', '<', 'E', 'N', 'D', '>', '>', '>']
def arrowLit : List Char := ['-', '>']
def gt3 : List Char := ['>', '>', '>']

/-- Backtracking for a lazy `(.+?)` group: try the continuation after one
consumed character first, then grow the capture, never across a newline.
`k capture rest` is the rest of the pattern. -/
def dotPlus {β : Type} (k : List Char → List Char → Option β) :
    List Char → Option β
  | [] => none
  | c :: rest =>
    if c = '\n' then none
    else
      match k [c] rest with
      | some b => some b
      | none => dotPlus (fun cap r => k (c :: cap) r) rest

/-- Backtracking for a greedy `\s*` group: try the continuation at the
longest whitespace run first, then shrink. -/
def wsGreedy {β : Type} (k : List Char → Option β) : List Char → Option β
  | [] => k []
  | c :: rest =>
    if wsChar c then
      match wsGreedy k rest with
      | some b => some b
      | none => k (c :: rest)
    else k (c :: rest)

/-- A lazy `[\s\S]*?` capture up to the first occurrence of `lit`, returning
the capture and the input after `lit`.  Committed choice of the first
occurrence is exactly the JavaScript behaviour here, because every such
group in the five regexes is followed only by more literal-terminated lazy
groups, whose failure is monotone in the suffix. -/
def lazyUpto (lit : List Char) : List Char → Option (List Char × List Char)
  | [] => if beginsWith lit [] then some ([], []) else none
  | c :: rest =>
    if beginsWith lit (c :: rest) then
      some ([], (dropLit lit (c :: rest)).getD [])
    else
      match lazyUpto lit rest with
      | some (cap, r) => some (c :: cap, r)
      | none => none

/-- The interior of `OVERWRITE_RE`: `((?:(?!<<<SEARCH>>>)[\s\S])*?)` up to
`<<<END>>>` — a lazy capture up to the first `<<<END>>>` that refuses to
consume any position where `<<<SEARCH>>>` starts. -/
def lazyUptoStop (endLit stopLit : List Char) : List Char →
    Option (List Char × List Char)
  | [] => if beginsWith endLit [] then some ([], []) else none
  | c :: rest =>
    if beginsWith endLit (c :: rest) then
      some ([], (dropLit endLit (c :: rest)).getD [])
    else if beginsWith stopLit (c :: rest) then
      none
    else
      match lazyUptoStop endLit stopLit rest with
      | some (cap, r) => some (c :: cap, r)
      | none => none

/-- `CREATE_RE = /<<<CREATE:\s*(.+?)>>>([\s\S]*?)<<<END>>>/g` anchored at the
head of the input: on success, the parsed operation and the input after the
match. -/
def matchCreateAt (s : List Char) : Option (FileOperation × List Char) :=
  (dropLit createMark s).bind fun t =>
  wsGreedy (dotPlus fun cap r =>
    (dropLit gt3 r).bind fun r2 =>
    (lazyUpto endMark r2).map fun (content, r3) =>
      ({ type := .create, file := trimL cap, content := trimL content },
       r3)) t

/-- `DELETE_RE = /<<<DELETE:\s*(.+?)>>>[\s\S]*?<<<END>>>/g` anchored at the
head of the input. -/
def matchDeleteAt (s : List Char) : Option (FileOperation × List Char) :=
  (dropLit deleteMark s).bind fun t =>
  wsGreedy (dotPlus fun cap r =>
    (dropLit gt3 r).bind fun r2 =>
    (lazyUpto endMark r2).map fun (_, r3) =>
      ({ type := .delete, file := trimL cap }, r3)) t

/-- `RENAME_RE = /<<<RENAME:\s*(.+?)\s*->\s*(.+?)>>>[\s\S]*?<<<END>>>/g`
anchored at the head of the input. -/
def matchRenameAt (s : List Char) : Option (FileOperation × List Char) :=
  (dropLit renameMark s).bind fun t =>
  wsGreedy (dotPlus fun fromCap r =>
    wsGreedy (fun r2 =>
      (dropLit arrowLit r2).bind fun r3 =>
      wsGreedy (dotPlus fun toCap r4 =>
        (dropLit gt3 r4).bind fun r5 =>
        (lazyUpto endMark r5).map fun (_, r6) =>
          ({ type := .rename, from_ := trimL fromCap, to_ := trimL toCap },
           r6)) r3) r) t

/-- `SR_RE = /<<<FILE:\s*(.+?)>>>\s*<<<SEARCH>>>([\s\S]*?)<<<REPLACE>>>`
`([\s\S]*?)<<<END>>>/g` anchored at the head of the input. -/
def matchSRAt (s : List Char) : Option (FileOperation × List Char) :=
  (dropLit fileMark s).bind fun t =>
  wsGreedy (dotPlus fun cap r =>
    (dropLit gt3 r).bind fun r2 =>
    wsGreedy (fun r3 =>
      (dropLit searchMark r3).bind fun r4 =>
      (lazyUpto replaceMark r4).bind fun (se, r5) =>
      (lazyUpto endMark r5).map fun (re, r6) =>
        ({ type := .searchReplace, file := trimL cap, search := trimL se,
           replace := trimL re }, r6)) r2) t

/-- `OVERWRITE_RE = /<<<FILE:\s*(.+?)>>>((?:(?!<<<SEARCH>>>)[\s\S])*?)`
`<<<END>>>/g` anchored at the head of the input. -/
def matchOvrAt (s : List Char) : Option (FileOperation × List Char) :=
  (dropLit fileMark s).bind fun t =>
  wsGreedy (dotPlus fun cap r =>
    (dropLit gt3 r).bind fun r2 =>
    (lazyUptoStop endMark searchMark r2).map fun (content, r3) =>
      ({ type := .overwrite, file := trimL cap, content := trimL content },
       r3)) t

/-- One `while ((m = RE.exec(text)))` loop over a `/g` regex with fresh
`lastIndex`: attempt the anchored matcher at each position left to right; on
a match, emit it and resume at the match end.  `fuel` bounds the recursion
(every match consumes at least one character, so `s.length` suffices). -/
def scanAll (m : List Char → Option (FileOperation × List Char)) :
    Nat → List Char → List FileOperation
  | 0, _ => []
  | _ + 1, [] => []
  | fuel + 1, c :: rest =>
    match m (c :: rest) with
    | some (op, r) => op :: scanAll m fuel r
    | none => scanAll m fuel rest

namespace OperationsParser

/-- `OperationsParser.parse` from `src/extension.ts`: five independent
regex passes over the whole text (CREATE, DELETE, RENAME, SEARCH/REPLACE,
OVERWRITE, in that order), concatenating their matches. -/
def parse (text : List Char) : List FileOperation :=
  scanAll matchCreateAt text.length text ++
  scanAll matchDeleteAt text.length text ++
  scanAll matchRenameAt text.length text ++
  scanAll matchSRAt text.length text ++
  scanAll matchOvrAt text.length text

end OperationsParser

/-! ## Path resolution and the file-system state

POSIX `path.resolve(workspaceRoot, rel)` over path-segment lists: an
absolute `rel` (leading `/`) discards the root; `.` and empty segments are
skipped; `..` pops (stopping at the file-system root).  The containment
check of `OperationsExecutor.resolvePath` is the string test
`resolved === root || resolved.startsWith(root + path.sep)`, which on
normalized paths is exactly segment-list equality or strict segment-prefix. -/

abbrev Seg := List Char
abbrev AbsPath := List Seg

def resolveStep (acc : AbsPath) (seg : Seg) : AbsPath :=
  if seg = [] ∨ seg = ['.'] then acc
  else if seg = ['.', '.'] then acc.dropLast
  else acc ++ [seg]

/-- `path.resolve(root, rel)` with `/` separators, as an absolute
segment list (the workspace root itself is given as a segment list). -/
def resolve (root : AbsPath) (rel : List Char) : AbsPath :=
  let start := if beginsWith ['/'] rel then [] else root
  (splitAll ['/'] rel).foldl resolveStep start

/-- `resolved === root || resolved.startsWith(root + path.sep)`. -/
def contained (root resolved : AbsPath) : Bool :=
  resolved = root || beginsWith root resolved

/-- The file system visible to the executor: contents of regular files
keyed by resolved absolute path, plus the set of directories that exist
(`fs.mkdir` recursive adds whole ancestor chains).  Writes and removals on
this state stand for the corresponding `fs` calls. -/
structure FSState : Type where
  files : List (AbsPath × List Char)
  dirs : List AbsPath
  deriving DecidableEq, Repr

def getFile (st : FSState) (p : AbsPath) : Option (List Char) :=
  (st.files.find? (fun e => decide (e.1 = p))).map (·.2)

def existsFile (st : FSState) (p : AbsPath) : Bool :=
  (getFile st p).isSome

def setFile (st : FSState) (p : AbsPath) (c : List Char) : FSState :=
  if existsFile st p then
    { st with files := st.files.map (fun e => if e.1 = p then (p, c) else e) }
  else
    { st with files := st.files ++ [(p, c)] }

def removeFile (st : FSState) (p : AbsPath) : FSState :=
  { st with files := st.files.filter (fun e => decide (e.1 ≠ p)) }

/-- `fs.mkdir(dir, { recursive: true })`: the directory and all its
ancestors exist afterwards. -/
def mkdirRec (st : FSState) (d : AbsPath) : FSState :=
  { st with dirs := (st.dirs ++ d.inits).dedup }

namespace OperationsExecutor

/-- The aggregate result of `executeAll` (`{ success, errors, applied }`),
together with the file-system state the batch leaves behind. -/
structure ExecResult : Type where
  success : Nat
  errors : Nat
  applied : List FileOperation
  state : FSState
  deriving DecidableEq, Repr

def pathOutsideMsg (rel : List Char) : List Char :=
  String.toList "Path outside workspace: " ++ rel

/-- `OperationsExecutor.resolvePath` from `src/extension.ts`: resolve
against the workspace root and throw unless the result stays inside it. -/
def resolvePath (root : AbsPath) (rel : List Char) :
    Except (List Char) AbsPath :=
  let resolved := resolve root rel
  if contained root resolved then .ok resolved
  else .error (pathOutsideMsg rel)

/-- JavaScript truthiness of an optional string field (`!op.file` is true
both for a missing field and for an empty string). -/
def truthy : Option (List Char) → Bool
  | none => false
  | some s => s ≠ []

/-- `OperationsExecutor.create`.  The source wraps the existing-file check
and the overwrite prompt in `try { ... } catch { /* proceed */ }`; the
`throw` raised when the user declines sits inside that same `try`, so the
`catch` swallows it and the write still happens — the inner `Except` result
is computed and then discarded, faithfully to the source. -/
def create (confirm : Bool) (root : AbsPath) (st : FSState)
    (op : FileOperation) : Except (List Char) FSState :=
  if ¬ truthy op.file ∨ op.content = none then
    .error (String.toList "CREATE requires file path and content")
  else
    (resolvePath root (op.file.getD [])).bind fun filePath =>
    let st1 := mkdirRec st filePath.dropLast
    let checkResult : Except (List Char) Unit :=
      if existsFile st1 filePath then
        if confirm then .ok () else
          .error (String.toList "File already exists")
      else
        .error (String.toList "access rejected")
    let _ := checkResult   -- catch {}: the decline error is swallowed here
    .ok (setFile st1 filePath (op.content.getD []))

/-- `OperationsExecutor.delete`. -/
def del (root : AbsPath) (st : FSState) (op : FileOperation) :
    Except (List Char) FSState :=
  if ¬ truthy op.file then
    .error (String.toList "DELETE requires file path")
  else
    (resolvePath root (op.file.getD [])).bind fun filePath =>
    if ¬ existsFile st filePath then
      .error (String.toList "File does not exist")
    else
      .ok (removeFile st filePath)

/-- `OperationsExecutor.rename`.  The destination-exists check is wrapped in
`try { await fs.access(toPath); throw ... } catch { /* proceed */ }`: its own
`throw` is caught by its own `catch`, so the check is a no-op (modelled by a
discarded inner `Except`), and `fs.rename` then replaces an existing
destination, POSIX `rename(2)`. -/
def rename (root : AbsPath) (st : FSState) (op : FileOperation) :
    Except (List Char) FSState :=
  if ¬ truthy op.from_ ∨ ¬ truthy op.to_ then
    .error (String.toList "RENAME requires from and to paths")
  else
    (resolvePath root (op.from_.getD [])).bind fun fromPath =>
    (resolvePath root (op.to_.getD [])).bind fun toPath =>
    match getFile st fromPath with
    | none => .error (String.toList "Source file does not exist")
    | some content =>
      let destCheck : Except (List Char) Unit :=
        if existsFile st toPath then
          .error (String.toList "Destination file already exists")
        else
          .error (String.toList "access rejected")
      let _ := destCheck   -- catch {}: swallowed either way
      let st1 := mkdirRec st toPath.dropLast
      .ok (setFile (removeFile st1 fromPath) toPath content)

/-- `OperationsExecutor.searchReplace`: requires the file to exist and to
contain the (nonempty) search text, then writes
`content.split(search).join(replace)`. -/
def searchReplace (root : AbsPath) (st : FSState) (op : FileOperation) :
    Except (List Char) FSState :=
  if ¬ truthy op.file ∨ ¬ truthy op.search ∨ op.replace = none then
    .error (String.toList "SEARCH/REPLACE requires file, search, and replace")
  else
    (resolvePath root (op.file.getD [])).bind fun filePath =>
    match getFile st filePath with
    | none => .error (String.toList "File does not exist")
    | some content =>
      if ¬ containsLit (op.search.getD []) content then
        .error (String.toList "Search text not found")
      else
        .ok (setFile st filePath
          (replaceAllL content (op.search.getD []) (op.replace.getD [])))

/-- `OperationsExecutor.overwrite`: requires the file to exist, then
replaces its whole content. -/
def overwrite (root : AbsPath) (st : FSState) (op : FileOperation) :
    Except (List Char) FSState :=
  if ¬ truthy op.file ∨ op.content = none then
    .error (String.toList "OVERWRITE requires file path and content")
  else
    (resolvePath root (op.file.getD [])).bind fun filePath =>
    if ¬ existsFile st filePath then
      .error (String.toList "File does not exist")
    else
      .ok (setFile st filePath (op.content.getD []))

/-- The path arguments an operation hands to `resolvePath`, in the order
they are resolved. -/
def pathArgs (op : FileOperation) : List (List Char) :=
  match op.type with
  | .rename =>
    (match op.from_ with | some f => [f] | none => []) ++
    (match op.to_ with | some t => [t] | none => [])
  | _ => match op.file with | some f => [f] | none => []

/-- A relative path escapes the workspace: its resolution is not contained
in the root. -/
def escapes (root : AbsPath) (rel : List Char) : Bool :=
  ¬ contained root (resolve root rel)

/-- Some path argument of the operation escapes the workspace root. -/
def opEscapes (root : AbsPath) (op : FileOperation) : Bool :=
  (pathArgs op).any (escapes root)

/-- `OperationsExecutor.executeOperation`: dispatch on the operation type. -/
def executeOperation (confirm : Bool) (root : AbsPath) (st : FSState)
    (op : FileOperation) : Except (List Char) FSState :=
  match op.type with
  | .create => create confirm root st op
  | .delete => del root st op
  | .rename => rename root st op
  | .searchReplace => searchReplace root st op
  | .overwrite => overwrite root st op

/-- `OperationsExecutor.executeAll`: run every operation in the given order,
each inside its own try/catch; count successes and errors, collect the
successfully applied operations, never propagate a failure.  (The
`withProgress` notification wrapper has no effect on the computation.) -/
def executeAll (confirm : Bool) (root : AbsPath) :
    List FileOperation → FSState → ExecResult
  | [], st => ⟨0, 0, [], st⟩
  | op :: rest, st =>
    match executeOperation confirm root st op with
    | .ok st1 =>
      let r := executeAll confirm root rest st1
      ⟨r.success + 1, r.errors, op :: r.applied, r.state⟩
    | .error _ =>
      let r := executeAll confirm root rest st
      ⟨r.success, r.errors + 1, r.applied, r.state⟩

end OperationsExecutor

/-! ## The task ledger

`TaskManager` from `src/taskManager.ts` (Inspector-Diff-lfirst variant, the
one with `includedFiles`).  `Date.now()` is modelled by a monotone `Nat`
clock carried in the state; a task id is the clock value at creation (the
source stringifies it).  Persistence (`.inspector-diff/tasks/<id>/task-data
.json`) is an id-keyed store: `saveTask` replaces the record with the same
id or appends a new one.  Terminal side effects (`sendText`, messages) have
no observable result in the source, so `commitTask` takes the external git
outcome as a parameter that — faithfully to the fire-and-forget source — it
never reads, and `undoTask` takes the confirmation answer, which it does
read. -/

inductive TaskStatus : Type
  | pending | applied | committed | undone
  deriving DecidableEq, Repr

structure Task : Type where
  id : Nat
  name : List Char
  description : Option (List Char)
  createdAt : Nat
  operations : List FileOperation
  status : TaskStatus
  affectedFiles : List (List Char)
  includedFiles : List (List Char)
  deriving DecidableEq, Repr

structure TMState : Type where
  store : List Task
  current : Option Task
  now : Nat
  deriving DecidableEq, Repr

namespace TaskManager

/-- Write `task-data.json` for the task's id: replace the stored record with
that id, or create it. -/
def saveTask (t : Task) (store : List Task) : List Task :=
  if store.any (fun u => decide (u.id = t.id)) then
    store.map (fun u => if u.id = t.id then t else u)
  else
    store ++ [t]

/-- Stable insertion into a list sorted by `createdAt` descending: an
element coming earlier in the original list stays before later elements
with the same timestamp, like the (ES2019-stable) `Array.prototype.sort`
comparator `b.createdAt - a.createdAt`. -/
def insertDesc (t : Task) : List Task → List Task
  | [] => [t]
  | u :: us =>
    if u.createdAt ≤ t.createdAt then t :: u :: us
    else u :: insertDesc t us

def sortDesc : List Task → List Task
  | [] => []
  | t :: ts => insertDesc t (sortDesc ts)

/-- `loadRecentTasks(count)`: all persisted tasks, most recent first,
truncated to `count`. -/
def loadRecentTasks (count : Nat) (store : List Task) : List Task :=
  (sortDesc store).take count

/-- `findTaskByName`: first exact name match among the 200 most recent. -/
def findTaskByName (name : List Char) (store : List Task) : Option Task :=
  (loadRecentTasks 200 store).find? (fun t => decide (t.name = name))

/-- JavaScript truthiness of the optional description (`description &&
!existing.description`): an empty string is falsy. -/
def descTruthy : Option (List Char) → Bool
  | none => false
  | some d => d ≠ []

/-- `startTask(name, description?)`: reuse the persisted task with this
name, merging the description only if the existing one is falsy; otherwise
create a fresh task (id and `createdAt` from the clock), persist it, and
advance the clock. -/
def startTask (name : List Char) (description : Option (List Char))
    (s : TMState) : Task × TMState :=
  match findTaskByName name s.store with
  | some existing =>
    if descTruthy description ∧ ¬ descTruthy existing.description then
      let t := { existing with description := description }
      (t, { s with store := saveTask t s.store, current := some t })
    else
      (existing, { s with current := some existing })
  | none =>
    let t : Task :=
      { id := s.now, name := name, description := description,
        createdAt := s.now, operations := [], status := .pending,
        affectedFiles := [], includedFiles := [] }
    (t, { store := saveTask t s.store, current := some t, now := s.now + 1 })

/-- `addIncludedFiles(paths)`: append the paths not already present, in
order. -/
def addIncludedFiles (paths : List (List Char)) (s : TMState) :
    Except (List Char) TMState :=
  match s.current with
  | none => .error (String.toList "No active task")
  | some t =>
    let included :=
      paths.foldl (fun acc f => if f ∈ acc then acc else acc ++ [f])
        t.includedFiles
    let t1 := { t with includedFiles := included }
    .ok { s with store := saveTask t1 s.store, current := some t1 }

/-- One step of the affected-files accumulation: add the operation's
`file`, `from` and `to` fields, each only if present and not yet tracked. -/
def addAffected (acc : List (List Char)) (op : FileOperation) :
    List (List Char) :=
  let add (a : List (List Char)) : Option (List Char) → List (List Char)
    | none => a
    | some p => if p ∈ a then a else a ++ [p]
  add (add (add acc op.file) op.from_) op.to_

/-- `addOperations(operations)`: append to the operation log, extend
`affectedFiles`, and set the status to `applied` — unconditionally, whatever
the previous status was. -/
def addOperations (operations : List FileOperation) (s : TMState) :
    Except (List Char) TMState :=
  match s.current with
  | none => .error (String.toList "No active task")
  | some t =>
    let t1 := { t with
      operations := t.operations ++ operations,
      affectedFiles := operations.foldl addAffected t.affectedFiles,
      status := .applied }
    .ok { s with store := saveTask t1 s.store, current := some t1 }

/-- `commitTask()`: requires the current task to be in status `applied`,
sends `git add .` and `git commit` to a terminal, and sets the status to
`committed`.  The terminal is fire-and-forget: `gitOk`, the actual outcome
of the external commit, is never consulted. -/
def commitTask (gitOk : Bool) (s : TMState) : Except (List Char) TMState :=
  match s.current with
  | none => .error (String.toList "No applied task to commit")
  | some t =>
    if t.status ≠ .applied then
      .error (String.toList "No applied task to commit")
    else
      let _ := gitOk   -- sendText result is not observed by the source
      let t1 := { t with status := .committed }
      .ok { s with store := saveTask t1 s.store, current := some t1 }

/-- `undoTask()`: requires status `applied` and an explicit confirmation;
on confirmation sends `git reset --hard HEAD` and sets status `undone`,
otherwise returns without changing anything. -/
def undoTask (confirmed : Bool) (s : TMState) : Except (List Char) TMState :=
  match s.current with
  | none => .error (String.toList "No applied task to undo")
  | some t =>
    if t.status ≠ .applied then
      .error (String.toList "No applied task to undo")
    else if ¬ confirmed then
      .ok s
    else
      let t1 := { t with status := .undone }
      .ok { s with store := saveTask t1 s.store, current := some t1 }

/-- Projection used in ledger statements: the status of the current task
after a ledger call, `none` when the call failed. -/
def currentStatus (r : Except (List Char) TMState) : Option TaskStatus :=
  match r with
  | .error _ => none
  | .ok s => s.current.map (fun t => t.status)

end TaskManager

/-! ## Split/join lemmas

Supporting facts about `breakOn`, `splitAll` and `joinWith`, building up to
the search/replace round-trip. -/

section SplitLemmas

variable {α : Type} [DecidableEq α]

theorem beginsWith_append_self (l t : List α) :
    beginsWith l (l ++ t) = true := by
  induction l with
  | nil => rfl
  | cons a as ih => simp [beginsWith, ih]

theorem dropLit_append (l t : List α) : dropLit l (l ++ t) = some t := by
  induction l with
  | nil => rfl
  | cons a as ih => simp [dropLit, ih]

theorem beginsWith_iff (l : List α) : ∀ s,
    beginsWith l s = true ↔ ∃ t, s = l ++ t := by
  induction l with
  | nil => intro s; simp [beginsWith]
  | cons a as ih =>
    intro s
    cases s with
    | nil => simp [beginsWith]
    | cons b bs =>
      simp only [beginsWith, Bool.and_eq_true, decide_eq_true_eq, ih,
        List.cons_append, List.cons_eq_cons]
      constructor
      · rintro ⟨rfl, t, rfl⟩; exact ⟨t, rfl, rfl⟩
      · rintro ⟨t, rfl, rfl⟩; exact ⟨rfl, t, rfl⟩

theorem breakOn_none_eq (sep : List α) : ∀ s p,
    breakOn sep s = (p, none) → p = s := by
  intro s
  induction s with
  | nil => intro p h; simpa [breakOn] using congrArg Prod.fst h
  | cons c rest ih =>
    intro p h
    by_cases hb : beginsWith sep (c :: rest) = true
    · simp [breakOn, hb] at h
    · simp only [breakOn, hb, if_neg, Bool.false_eq_true, if_false] at h
      obtain ⟨h1, h2⟩ := Prod.mk.injEq .. ▸ h
      cases hq : breakOn sep rest with
      | mk q1 q2 =>
        rw [hq] at h1 h2
        simp only at h1 h2
        subst h1
        rw [ih q1 (by rw [hq, h2])]

theorem breakOn_some_eq (sep : List α) : ∀ s p r,
    breakOn sep s = (p, some r) → s = p ++ sep ++ r := by
  intro s
  induction s with
  | nil => intro p r h; simp [breakOn] at h
  | cons c rest ih =>
    intro p r h
    by_cases hb : beginsWith sep (c :: rest) = true
    · obtain ⟨t, ht⟩ := (beginsWith_iff sep (c :: rest)).mp hb
      rw [breakOn] at h
      rw [if_pos hb, ht, dropLit_append] at h
      obtain ⟨h1, h2⟩ := Prod.mk.injEq .. ▸ h
      subst h1
      simp only [Option.getD_some, Option.some.injEq] at h2
      subst h2
      simpa using ht
    · rw [breakOn, if_neg hb] at h
      obtain ⟨h1, h2⟩ := Prod.mk.injEq .. ▸ h
      cases hq : breakOn sep rest with
      | mk q1 q2 =>
        rw [hq] at h1 h2
        simp only at h1 h2
        subst h1
        have := ih q1 r (by rw [hq, h2])
        simp [this]

theorem breakOn_disjoint (sep : List α) (hsep : sep ≠ []) : ∀ s,
    (∀ c ∈ s, c ∉ sep) → breakOn sep s = (s, none) := by
  intro s
  induction s with
  | nil => intro _; rfl
  | cons c rest ih =>
    intro hd
    obtain ⟨h, tl, rfl⟩ := List.exists_cons_of_ne_nil hsep
    have hne : ¬ (h = c) := by
      intro he
      exact hd c (List.mem_cons_self c rest)
        (he ▸ List.mem_cons_self h tl)
    have hb : beginsWith (h :: tl) (c :: rest) = false := by
      simp [beginsWith, hne]
    rw [breakOn, if_neg (by simp [hb]),
      ih (fun x hx => hd x (List.mem_cons_of_mem c hx))]

theorem breakOn_at_sep (sep : List α) (hsep : sep ≠ []) : ∀ p t,
    (∀ c ∈ p, c ∉ sep) → breakOn sep (p ++ sep ++ t) = (p, some t) := by
  intro p
  induction p with
  | nil =>
    intro t _
    obtain ⟨h, tl, hsep'⟩ := List.exists_cons_of_ne_nil hsep
    have hcons : sep ++ t = h :: (tl ++ t) := by rw [hsep']; rfl
    simp only [List.nil_append]
    rw [show sep ++ t = h :: (tl ++ t) from hcons, breakOn]
    rw [← hcons, if_pos (beginsWith_append_self sep t), dropLit_append]
    rfl
  | cons c p' ih =>
    intro t hd
    obtain ⟨h, tl, hsep'⟩ := List.exists_cons_of_ne_nil hsep
    have hmem : h ∈ sep := by rw [hsep']; exact List.mem_cons_self h tl
    have hne : ¬ (h = c) := by
      intro he
      exact hd c (List.mem_cons_self c p') (he ▸ hmem)
    have hb : ¬ (beginsWith sep (c :: (p' ++ (sep ++ t))) = true) := by
      rw [hsep']; simp [beginsWith, hne]
    have hshape : (c :: p') ++ sep ++ t = c :: (p' ++ (sep ++ t)) := by simp
    rw [hshape, breakOn, if_neg hb]
    have hih := ih t (fun x hx => hd x (List.mem_cons_of_mem c hx))
    rw [List.append_assoc] at hih
    rw [hih]

theorem splitAllF_fuel (sep : List α) (hsep : sep ≠ []) : ∀ f1 f2 s,
    s.length < f1 → s.length < f2 → splitAllF sep f1 s = splitAllF sep f2 s := by
  intro f1
  induction f1 with
  | zero => intro f2 s h1; omega
  | succ f1 ih =>
    intro f2 s h1 h2
    cases f2 with
    | zero => omega
    | succ f2 =>
      simp only [splitAllF]
      cases hb : breakOn sep s with
      | mk p o =>
        cases o with
        | none => rfl
        | some r =>
          have hdec := breakOn_some_eq sep s p r hb
          have hlen : r.length < s.length := by
            rw [hdec]
            simp only [List.append_assoc, List.length_append]
            have : 0 < sep.length := List.length_pos.mpr hsep
            omega
          simp only [List.cons.injEq, true_and]
          exact ih f2 r (by omega) (by omega)

theorem splitAll_eq_step (sep : List α) (hsep : sep ≠ []) (s : List α) :
    splitAll sep s =
      match breakOn sep s with
      | (p, none) => [p]
      | (p, some r) => p :: splitAll sep r := by
  rw [splitAll, if_neg hsep]
  simp only [splitAllF]
  cases hb : breakOn sep s with
  | mk p o =>
    cases o with
    | none => rfl
    | some r =>
      have hdec := breakOn_some_eq sep s p r hb
      have hlen : r.length < s.length := by
        rw [hdec]
        simp only [List.append_assoc, List.length_append]
        have : 0 < sep.length := List.length_pos.mpr hsep
        omega
      simp only [List.cons.injEq, true_and]
      rw [splitAll, if_neg hsep]
      exact splitAllF_fuel sep hsep s.length (r.length + 1) r (by omega)
        (by omega)

theorem splitAll_ne_nil (sep s : List α) : splitAll sep s ≠ [] := by
  by_cases hsep : sep = []
  · simp [splitAll, hsep]
  · rw [splitAll_eq_step sep hsep]
    cases hb : breakOn sep s with
    | mk p o => cases o <;> simp

theorem joinWith_cons (sep p : List α) (ps : List (List α)) (h : ps ≠ []) :
    joinWith sep (p :: ps) = p ++ sep ++ joinWith sep ps := by
  cases ps with
  | nil => exact absurd rfl h
  | cons q ps' => rfl

theorem joinWith_splitAll (sep : List α) (hsep : sep ≠ []) (s : List α) :
    joinWith sep (splitAll sep s) = s := by
  have key : ∀ n, ∀ s : List α, s.length ≤ n →
      joinWith sep (splitAll sep s) = s := by
    intro n
    induction n with
    | zero =>
      intro s hs
      have : s = [] := List.length_eq_zero.mp (Nat.le_zero.mp hs)
      subst this
      rw [splitAll_eq_step sep hsep]
      rfl
    | succ n ih =>
      intro s hs
      rw [splitAll_eq_step sep hsep]
      cases hb : breakOn sep s with
      | mk p o =>
        cases o with
        | none => simpa [joinWith] using (breakOn_none_eq sep s p hb)
        | some r =>
          have hdec := breakOn_some_eq sep s p r hb
          have hlen : r.length < s.length := by
            rw [hdec]
            simp only [List.append_assoc, List.length_append]
            have : 0 < sep.length := List.length_pos.mpr hsep
            omega
          simp only
          rw [joinWith_cons sep p _ (splitAll_ne_nil sep r),
            ih r (by omega), ← hdec]
  exact key s.length s le_rfl

theorem splitAll_disjoint (sep : List α) (hsep : sep ≠ []) (s : List α)
    (h : ∀ c ∈ s, c ∉ sep) : splitAll sep s = [s] := by
  rw [splitAll_eq_step sep hsep, breakOn_disjoint sep hsep s h]

theorem splitAll_chars (sep : List α) (hsep : sep ≠ []) (s : List α) :
    ∀ x ∈ splitAll sep s, ∀ c ∈ x, c ∈ s := by
  have key : ∀ n, ∀ s : List α, s.length ≤ n →
      ∀ x ∈ splitAll sep s, ∀ c ∈ x, c ∈ s := by
    intro n
    induction n with
    | zero =>
      intro s hs x hx c hc
      have : s = [] := List.length_eq_zero.mp (Nat.le_zero.mp hs)
      subst this
      rw [splitAll_eq_step sep hsep] at hx
      have hempty : breakOn sep ([] : List α) = ([], none) := rfl
      rw [hempty] at hx
      simp only [List.mem_singleton] at hx
      subst hx
      exact absurd hc (List.not_mem_nil c)
    | succ n ih =>
      intro s hs x hx c hc
      rw [splitAll_eq_step sep hsep] at hx
      cases hb : breakOn sep s with
      | mk p o =>
        rw [hb] at hx
        cases o with
        | none =>
          simp only [List.mem_singleton] at hx
          exact (breakOn_none_eq sep s p hb) ▸ hx ▸ hc
        | some r =>
          have hdec := breakOn_some_eq sep s p r hb
          have hlen : r.length < s.length := by
            rw [hdec]
            simp only [List.append_assoc, List.length_append]
            have : 0 < sep.length := List.length_pos.mpr hsep
            omega
          simp only [List.mem_cons] at hx
          rcases hx with rfl | hx
          · rw [hdec]; simp [hc]
          · have := ih r (by omega) x hx c hc
            rw [hdec]; simp [this]
  exact key s.length s le_rfl

theorem splitAll_joinWith_inv (sep : List α) (hsep : sep ≠ []) :
    ∀ ps : List (List α), ps ≠ [] → (∀ p ∈ ps, ∀ c ∈ p, c ∉ sep) →
      splitAll sep (joinWith sep ps) = ps := by
  intro ps
  induction ps with
  | nil => intro h; exact absurd rfl h
  | cons p ps' ih =>
    intro _ hd
    cases ps' with
    | nil =>
      show splitAll sep (joinWith sep [p]) = [p]
      exact splitAll_disjoint sep hsep p (hd p (List.mem_cons_self p []))
    | cons q ps'' =>
      rw [joinWith_cons sep p _ (by simp), splitAll_eq_step sep hsep,
        breakOn_at_sep sep hsep p _ (hd p (List.mem_cons_self p _))]
      simp only [List.cons.injEq, true_and]
      exact ih (by simp) (fun x hx => hd x (List.mem_cons_of_mem p hx))

/-- The search/replace round trip at the string level: if neither string is
empty and no symbol of `b` occurs in `s`, then replacing `a` by `b` and then
`b` by `a` restores `s` exactly. -/
theorem replaceAllL_roundtrip (a b s : List α) (ha : a ≠ []) (hb : b ≠ [])
    (hdisj : ∀ c ∈ b, c ∉ s) :
    replaceAllL (replaceAllL s a b) b a = s := by
  show joinWith a (splitAll b (joinWith b (splitAll a s))) = s
  rw [splitAll_joinWith_inv b hb (splitAll a s) (splitAll_ne_nil a s)
    (fun p hp c hc => fun hcb => hdisj c hcb
      (splitAll_chars a ha s p hp c hc))]
  exact joinWith_splitAll a ha s

theorem breakOn_some_of_contains (sep : List α) (hsep : sep ≠ []) : ∀ s,
    containsLit sep s = true → ∃ p r, breakOn sep s = (p, some r) := by
  intro s
  induction s with
  | nil =>
    intro h
    obtain ⟨a, as, rfl⟩ := List.exists_cons_of_ne_nil hsep
    simp [containsLit, beginsWith] at h
  | cons c rest ih =>
    intro h
    by_cases hb : beginsWith sep (c :: rest) = true
    · exact ⟨[], ((dropLit sep (c :: rest)).getD []),
        by rw [breakOn, if_pos hb]⟩
    · have h' : containsLit sep rest = true := by
        rw [containsLit] at h
        rcases (Bool.or_eq_true _ _).mp h with h1 | h1
        · exact absurd h1 hb
        · exact h1
      obtain ⟨p, r, hpr⟩ := ih h'
      exact ⟨c :: p, r, by rw [breakOn, if_neg hb, hpr]⟩

theorem containsLit_sandwich (lit : List α) (hlit : lit ≠ []) :
    ∀ x y, containsLit lit (x ++ lit ++ y) = true := by
  intro x
  induction x with
  | nil =>
    intro y
    obtain ⟨a, as, hl⟩ := List.exists_cons_of_ne_nil hlit
    have hcons : lit ++ y = a :: (as ++ y) := by rw [hl]; rfl
    simp only [List.nil_append]
    rw [show lit ++ y = a :: (as ++ y) from hcons, containsLit, ← hcons,
      beginsWith_append_self]
    rfl
  | cons c x' ih =>
    intro y
    have : (c :: x') ++ lit ++ y = c :: (x' ++ lit ++ y) := by simp
    rw [this, containsLit, ih y, Bool.or_true]

end SplitLemmas

/-! ## File-system state lemmas -/

theorem getFile_setFile_same (st : FSState) (p : AbsPath) (c : List Char) :
    getFile (setFile st p c) p = some c := by
  obtain ⟨files, dirs⟩ := st
  induction files with
  | nil => simp [setFile, existsFile, getFile, List.find?]
  | cons e rest ih =>
    by_cases he : e.1 = p
    · have hex : existsFile ⟨e :: rest, dirs⟩ p = true := by
        simp [existsFile, getFile, List.find?, he]
      simp [setFile, hex, getFile, List.find?, he]
    · have hstep : existsFile ⟨e :: rest, dirs⟩ p =
          existsFile ⟨rest, dirs⟩ p := by
        simp [existsFile, getFile, List.find?, he]
      by_cases hex : existsFile ⟨rest, dirs⟩ p = true
      · have h1 : existsFile ⟨e :: rest, dirs⟩ p = true := hstep.trans hex
        have ih' := ih
        simp only [setFile, hex, if_true, getFile, List.find?] at ih'
        simp only [setFile, h1, if_true, getFile, List.map_cons,
          List.find?, he, if_neg he, decide_eq_true_eq]
        simpa [he] using ih'
      · have h1 : ¬ existsFile ⟨e :: rest, dirs⟩ p = true := by
          rw [hstep]; exact hex
        have ih' := ih
        simp only [setFile, hex, if_false, getFile, List.find?,
          Bool.not_eq_true] at ih'
        simp only [setFile, h1, if_false, getFile, List.cons_append,
          List.find?, he, decide_eq_true_eq]
        simpa [he, hex] using ih'

/-! ## Claim C5: search/replace semantics and the round trip -/

/-- Claim C5, counterexample.  The claim asserts the round trip whenever
`search` and `replace` "do not textually overlap".  Take the file content
`pq`, `search = p`, `replace = q`: the two strings share no character, are
not substrings of one another, and share no affixes — they do not textually
overlap in any sense — yet applying `p→q` and then `q→p` maps `pq` to `qq`
to `pp`, not back to `pq`.  Both operations succeed (success count 2), and
the final file content is `pp ≠ pq`. -/
theorem searchReplace_roundtrip_cex :
    (OperationsExecutor.executeAll true [String.toList "ws"]
      [ { type := .searchReplace, file := some (String.toList "f.txt"),
          search := some ['p'], replace := some ['q'] },
        { type := .searchReplace, file := some (String.toList "f.txt"),
          search := some ['q'], replace := some ['p'] } ]
      ⟨[([String.toList "ws", String.toList "f.txt"], String.toList "pq")],
        []⟩ =
    ⟨2, 0,
      [ { type := .searchReplace, file := some (String.toList "f.txt"),
          search := some ['p'], replace := some ['q'] },
        { type := .searchReplace, file := some (String.toList "f.txt"),
          search := some ['q'], replace := some ['p'] } ],
      ⟨[([String.toList "ws", String.toList "f.txt"], String.toList "pp")],
        []⟩⟩) ∧
    String.toList "pp" ≠ String.toList "pq" := by
  constructor
  · decide
  · decide

/-- Claim C5, amended: on an existing file whose content contains the
nonempty `search` verbatim, `searchReplace` succeeds and rewrites the file
with **every** occurrence of `search` replaced by `replace`
(`content.split(search).join(replace)`); and — strengthening the claim's
overlap condition to what the code actually guarantees — when `replace` is
nonempty and no character of `replace` occurs in the original content,
applying `search→replace` and then `replace→search` restores the original
content byte-for-byte. -/
theorem searchReplace_replaces_all_and_roundtrips
    (root : AbsPath) (st : FSState) (f se re content : List Char)
    (fp : AbsPath)
    (hf : f ≠ []) (hse : se ≠ []) (hre : re ≠ [])
    (hres : OperationsExecutor.resolvePath root f = .ok fp)
    (hcontent : getFile st fp = some content)
    (hoccurs : containsLit se content = true)
    (hdisj : ∀ c ∈ re, c ∉ content) :
    (OperationsExecutor.searchReplace root st
        { type := .searchReplace, file := some f, search := some se,
          replace := some re } =
      .ok (setFile st fp (replaceAllL content se re))) ∧
    getFile (setFile st fp (replaceAllL content se re)) fp =
      some (replaceAllL content se re) ∧
    (OperationsExecutor.searchReplace root
        (setFile st fp (replaceAllL content se re))
        { type := .searchReplace, file := some f, search := some re,
          replace := some se } =
      .ok (setFile (setFile st fp (replaceAllL content se re)) fp
        content)) := by
  have hget := getFile_setFile_same st fp (replaceAllL content se re)
  have hcontains : containsLit re (replaceAllL content se re) = true := by
    obtain ⟨p, r, hpr⟩ := breakOn_some_of_contains se hse content hoccurs
    have hstep : splitAll se content = p :: splitAll se r := by
      rw [splitAll_eq_step se hse content, hpr]
    obtain ⟨q, rest, hqrest⟩ :=
      List.exists_cons_of_ne_nil (splitAll_ne_nil se r)
    show containsLit re (joinWith re (splitAll se content)) = true
    rw [hstep, hqrest, joinWith_cons re p _ (by simp)]
    exact containsLit_sandwich re hre p _
  have hrt : replaceAllL (replaceAllL content se re) re se = content :=
    replaceAllL_roundtrip se re content hse hre hdisj
  refine ⟨?_, hget, ?_⟩
  · simp [OperationsExecutor.searchReplace, OperationsExecutor.truthy,
      Except.bind, hf, hse, hres, hcontent, hoccurs]
  · simp [OperationsExecutor.searchReplace, OperationsExecutor.truthy,
      Except.bind, hf, hre, hres, hget, hcontains, hrt]

/-- Claim C5, witness: the amended theorem applied to the file `f.txt` with
content `aXb`, search `X`, replace `qq` (no character of `qq` occurs in
`aXb`). -/
theorem searchReplace_replaces_all_and_roundtrips_witness :
    (∀ c ∈ String.toList "qq", c ∉ String.toList "aXb") ∧
    (OperationsExecutor.searchReplace [String.toList "ws"]
        ⟨[([String.toList "ws", String.toList "f.txt"],
           String.toList "aXb")], []⟩
        { type := .searchReplace, file := some (String.toList "f.txt"),
          search := some (String.toList "X"),
          replace := some (String.toList "qq") } =
      .ok (setFile
        ⟨[([String.toList "ws", String.toList "f.txt"],
           String.toList "aXb")], []⟩
        [String.toList "ws", String.toList "f.txt"]
        (replaceAllL (String.toList "aXb") (String.toList "X")
          (String.toList "qq")))) :=
  ⟨by decide,
    (searchReplace_replaces_all_and_roundtrips
      [String.toList "ws"]
      ⟨[([String.toList "ws", String.toList "f.txt"],
         String.toList "aXb")], []⟩
      (String.toList "f.txt") (String.toList "X") (String.toList "qq")
      (String.toList "aXb")
      [String.toList "ws", String.toList "f.txt"]
      (by decide) (by decide) (by decide) rfl rfl (by decide)
      (by decide)).1⟩

/-! ## Claim C6: the batch always runs to completion -/

theorem executeAll_counts (confirm : Bool) (root : AbsPath) :
    ∀ (ops : List FileOperation) (st : FSState),
      (OperationsExecutor.executeAll confirm root ops st).success +
        (OperationsExecutor.executeAll confirm root ops st).errors =
        ops.length ∧
      (OperationsExecutor.executeAll confirm root ops st).applied.length =
        (OperationsExecutor.executeAll confirm root ops st).success := by
  intro ops
  induction ops with
  | nil => intro st; exact ⟨rfl, rfl⟩
  | cons op rest ih =>
    intro st
    cases h : OperationsExecutor.executeOperation confirm root st op with
    | ok st1 =>
      have := ih st1
      simp only [OperationsExecutor.executeAll, h, List.length_cons]
      omega
    | error e =>
      have := ih st
      simp only [OperationsExecutor.executeAll, h, List.length_cons]
      omega

theorem executeAll_applied_sublist (confirm : Bool) (root : AbsPath) :
    ∀ (ops : List FileOperation) (st : FSState),
      (OperationsExecutor.executeAll confirm root ops st).applied.Sublist
        ops := by
  intro ops
  induction ops with
  | nil => intro st; exact List.Sublist.refl []
  | cons op rest ih =>
    intro st
    cases h : OperationsExecutor.executeOperation confirm root st op with
    | ok st1 =>
      simpa only [OperationsExecutor.executeAll, h] using
        List.Sublist.cons₂ op (ih st1)
    | error e =>
      simpa only [OperationsExecutor.executeAll, h] using
        List.Sublist.cons op (ih st)


open OperationsExecutor in
theorem executeAll_cons_ok (confirm : Bool) (root : AbsPath)
    (op : FileOperation) (ops : List FileOperation) (st st1 : FSState)
    (h : executeOperation confirm root st op = .ok st1) :
    executeAll confirm root (op :: ops) st =
      ⟨(executeAll confirm root ops st1).success + 1,
       (executeAll confirm root ops st1).errors,
       op :: (executeAll confirm root ops st1).applied,
       (executeAll confirm root ops st1).state⟩ := by
  simp [executeAll, h]

open OperationsExecutor in
theorem executeAll_cons_err (confirm : Bool) (root : AbsPath)
    (op : FileOperation) (ops : List FileOperation) (st : FSState)
    (e : List Char)
    (h : executeOperation confirm root st op = .error e) :
    executeAll confirm root (op :: ops) st =
      ⟨(executeAll confirm root ops st).success,
       (executeAll confirm root ops st).errors + 1,
       (executeAll confirm root ops st).applied,
       (executeAll confirm root ops st).state⟩ := by
  simp [executeAll, h]

open OperationsExecutor in
theorem executeAll_append (confirm : Bool) (root : AbsPath) :
    ∀ (ops1 ops2 : List FileOperation) (st : FSState),
      executeAll confirm root (ops1 ++ ops2) st =
        ⟨(executeAll confirm root ops1 st).success +
           (executeAll confirm root ops2
             (executeAll confirm root ops1 st).state).success,
         (executeAll confirm root ops1 st).errors +
           (executeAll confirm root ops2
             (executeAll confirm root ops1 st).state).errors,
         (executeAll confirm root ops1 st).applied ++
           (executeAll confirm root ops2
             (executeAll confirm root ops1 st).state).applied,
         (executeAll confirm root ops2
           (executeAll confirm root ops1 st).state).state⟩ := by
  intro ops1
  induction ops1 with
  | nil =>
    intro ops2 st
    simp only [List.nil_append, executeAll, Nat.zero_add, List.nil_append]
  | cons op rest ih =>
    intro ops2 st
    rw [List.cons_append]
    cases h : executeOperation confirm root st op with
    | ok st1 =>
      rw [executeAll_cons_ok confirm root op (rest ++ ops2) st st1 h,
        executeAll_cons_ok confirm root op rest st st1 h, ih]
      simp only [ExecResult.mk.injEq, List.cons_append, and_true,
        true_and]
      omega
    | error e =>
      rw [executeAll_cons_err confirm root op (rest ++ ops2) st e h,
        executeAll_cons_err confirm root op rest st e h, ih]
      simp only [ExecResult.mk.injEq, and_true, true_and]
      omega

/-- Claim C6: `executeAll` processes the operations strictly in order and
runs the whole batch to completion.  The model is a total function, so no
exception escapes; the success and error counts sum to the number of input
operations; the applied list is exactly the successful operations in input
order (a sublist of the input whose length is the success count); and the
result on `ops ++ ops2` is the result on `ops` continued by the result on
`ops2` from the intermediate state — one operation's failure neither aborts
nor rolls back the rest of the batch. -/
theorem executeAll_runs_to_completion :
    ∀ (confirm : Bool) (root : AbsPath) (ops ops2 : List FileOperation)
      (st : FSState),
      ((OperationsExecutor.executeAll confirm root ops st).success +
        (OperationsExecutor.executeAll confirm root ops st).errors =
        ops.length) ∧
      ((OperationsExecutor.executeAll confirm root ops st).applied.length =
        (OperationsExecutor.executeAll confirm root ops st).success) ∧
      ((OperationsExecutor.executeAll confirm root ops st).applied.Sublist
        ops) ∧
      (OperationsExecutor.executeAll confirm root (ops ++ ops2) st =
        ⟨(OperationsExecutor.executeAll confirm root ops st).success +
           (OperationsExecutor.executeAll confirm root ops2
             (OperationsExecutor.executeAll confirm root ops st).state).success,
         (OperationsExecutor.executeAll confirm root ops st).errors +
           (OperationsExecutor.executeAll confirm root ops2
             (OperationsExecutor.executeAll confirm root ops st).state).errors,
         (OperationsExecutor.executeAll confirm root ops st).applied ++
           (OperationsExecutor.executeAll confirm root ops2
             (OperationsExecutor.executeAll confirm root ops st).state).applied,
         (OperationsExecutor.executeAll confirm root ops2
           (OperationsExecutor.executeAll confirm root ops st).state).state⟩) :=
  fun confirm root ops ops2 st =>
  ⟨(executeAll_counts confirm root ops st).1,
   (executeAll_counts confirm root ops st).2,
   executeAll_applied_sublist confirm root ops st,
   executeAll_append confirm root ops ops2 st⟩

/-! ## Claim C2: path containment -/

section ContainmentClaim

open OperationsExecutor

/-- Claim C2: an operation with a path argument that resolves outside the
workspace root always fails — `resolvePath` is called before any state
change, so `executeOperation` returns an error and `executeAll` records one
error, zero successes, an empty applied list, and leaves the file system
untouched. -/
theorem escaping_op_fails_untouched (confirm : Bool) (root : AbsPath)
    (st : FSState) (op : FileOperation)
    (hesc : opEscapes root op = true) :
    (∃ e, executeOperation confirm root st op = .error e) ∧
    executeAll confirm root [op] st = ⟨0, 1, [], st⟩ := by
  have herr : ∃ e, executeOperation confirm root st op = .error e := by
    rcases op with ⟨ty, file, from_, to_, search, replace, content⟩
    cases ty with
    | create =>
      simp only [opEscapes, pathArgs] at hesc
      cases file with
      | none => simp at hesc
      | some f =>
        simp only [List.any_cons, List.any_nil, Bool.or_false] at hesc
        have hcon : contained root (resolve root f) = false := by
          simpa [escapes] using hesc
        simp only [executeOperation, create]
        by_cases harg : ¬ truthy (some f) ∨ content = none
        · exact ⟨_, by rw [if_pos harg]⟩
        · exact ⟨pathOutsideMsg f, by
            rw [if_neg harg]
            simp [resolvePath, hcon, Except.bind]⟩
    | delete =>
      simp only [opEscapes, pathArgs] at hesc
      cases file with
      | none => simp at hesc
      | some f =>
        simp only [List.any_cons, List.any_nil, Bool.or_false] at hesc
        have hcon : contained root (resolve root f) = false := by
          simpa [escapes] using hesc
        simp only [executeOperation, del]
        by_cases harg : ¬ truthy (some f)
        · exact ⟨_, by rw [if_pos harg]⟩
        · exact ⟨pathOutsideMsg f, by
            rw [if_neg harg]
            simp [resolvePath, hcon, Except.bind]⟩
    | searchReplace =>
      simp only [opEscapes, pathArgs] at hesc
      cases file with
      | none => simp at hesc
      | some f =>
        simp only [List.any_cons, List.any_nil, Bool.or_false] at hesc
        have hcon : contained root (resolve root f) = false := by
          simpa [escapes] using hesc
        simp only [executeOperation, OperationsExecutor.searchReplace]
        by_cases harg : ¬ truthy (some f) ∨ ¬ truthy search ∨
            replace = none
        · exact ⟨_, by rw [if_pos harg]⟩
        · exact ⟨pathOutsideMsg f, by
            rw [if_neg harg]
            simp [resolvePath, hcon, Except.bind]⟩
    | overwrite =>
      simp only [opEscapes, pathArgs] at hesc
      cases file with
      | none => simp at hesc
      | some f =>
        simp only [List.any_cons, List.any_nil, Bool.or_false] at hesc
        have hcon : contained root (resolve root f) = false := by
          simpa [escapes] using hesc
        simp only [executeOperation, overwrite]
        by_cases harg : ¬ truthy (some f) ∨ content = none
        · exact ⟨_, by rw [if_pos harg]⟩
        · exact ⟨pathOutsideMsg f, by
            rw [if_neg harg]
            simp [resolvePath, hcon, Except.bind]⟩
    | rename =>
      simp only [executeOperation, OperationsExecutor.rename]
      by_cases harg : ¬ truthy from_ ∨ ¬ truthy to_
      · exact ⟨_, by rw [if_pos harg]⟩
      · have harg2 := harg
        push_neg at harg2
        obtain ⟨hfrom, hto⟩ := harg2
        cases from_ with
        | none => simp [truthy] at hfrom
        | some f =>
          cases to_ with
          | none => simp [truthy] at hto
          | some t =>
            simp only [opEscapes, pathArgs, List.any_append,
              List.any_cons, List.any_nil, Bool.or_false,
              Bool.or_eq_true] at hesc
            by_cases hf : escapes root f = true
            · have hcon : contained root (resolve root f) = false := by
                simpa [escapes] using hf
              exact ⟨pathOutsideMsg f, by
                rw [if_neg harg]
                simp [resolvePath, hcon, Except.bind]⟩
            · have ht : escapes root t = true := by
                rcases hesc with h | h
                · exact absurd h hf
                · exact h
              have hconf : contained root (resolve root f) = true := by
                simp only [escapes, Bool.not_eq_true] at hf
                simpa using hf
              have hcont : contained root (resolve root t) = false := by
                simpa [escapes] using ht
              exact ⟨pathOutsideMsg t, by
                rw [if_neg harg]
                simp [resolvePath, hconf, hcont, Except.bind]⟩
  refine ⟨herr, ?_⟩
  obtain ⟨e, he⟩ := herr
  rw [executeAll_cons_err confirm root op [] st e he]
  rfl

/-- Claim C2, witness: a Create whose path `../evil.txt` resolves to
`/evil.txt`, outside the workspace root `/ws`. -/
theorem escaping_op_fails_untouched_witness :
    opEscapes [String.toList "ws"]
      { type := .create, file := some (String.toList "../evil.txt"),
        content := some (String.toList "x") } = true ∧
    ((∃ e, executeOperation true [String.toList "ws"] ⟨[], []⟩
        { type := .create, file := some (String.toList "../evil.txt"),
          content := some (String.toList "x") } = .error e) ∧
      executeAll true [String.toList "ws"]
        [{ type := .create, file := some (String.toList "../evil.txt"),
           content := some (String.toList "x") }] ⟨[], []⟩ =
        ⟨0, 1, [], ⟨[], []⟩⟩) :=
  ⟨by decide,
    escaping_op_fails_untouched true [String.toList "ws"] ⟨[], []⟩
      { type := .create, file := some (String.toList "../evil.txt"),
        content := some (String.toList "x") } (by decide)⟩

end ContainmentClaim

/-! ## Claim C1: source order of interleaved markers -/

/-- Claim C1: the claim that `parse` preserves the source order of
interleaved marker kinds fails on the code.  `parse` runs one full pass per
marker kind (all CREATEs, then all DELETEs, then RENAMEs, then
SEARCH/REPLACEs, then overwrites), so for the input text whose DELETE block
precedes its CREATE block, the output lists the create first — the opposite
of marker order.  The spec states order preservation as a requirement and
the repository's own review notes flag this multi-pass loop as the defect
(`parse` "gubi kolejność bloków"), so the code, not the claim, is wrong. -/
theorem parse_four_pass_loses_order :
    OperationsParser.parse (String.toList
      "<<<DELETE: a.ts>>>\n<<<END>>>\n<<<CREATE: b.ts>>>\nhi\n<<<END>>>") =
    [{ type := .create, file := some (String.toList "b.ts"),
       content := some (String.toList "hi") },
     { type := .delete, file := some (String.toList "a.ts") }] := by
  decide

/-! ## Claim C3: rename onto an existing destination -/

/-- Claim C3: the destination-exists guard in
`OperationsExecutor.rename` is `try { await fs.access(toPath); throw ... }
catch { }` — the `throw` is caught by its own `catch`, so the guard never
fires.  With `a.txt` containing `A` and `b.txt` containing `B`, the rename
`a.txt -> b.txt` is counted as a success, `a.txt` is gone, and `b.txt` is
overwritten with `A` — contradicting the claim (and the spec's table row,
which the Inspector-Diff-lfirst variant implements correctly with
`existsSync`). -/
theorem rename_overwrites_existing_destination :
    OperationsExecutor.executeAll true [String.toList "ws"]
      [ { type := .rename, from_ := some (String.toList "a.txt"),
          to_ := some (String.toList "b.txt") } ]
      ⟨[([String.toList "ws", String.toList "a.txt"], String.toList "A"),
        ([String.toList "ws", String.toList "b.txt"], String.toList "B")],
        []⟩ =
    ⟨1, 0,
      [ { type := .rename, from_ := some (String.toList "a.txt"),
          to_ := some (String.toList "b.txt") } ],
      ⟨[([String.toList "ws", String.toList "b.txt"], String.toList "A")],
        [[], [String.toList "ws"]]⟩⟩ := by
  decide

/-! ## Claim C4: declined overwrite confirmation -/

/-- Claim C4: in `OperationsExecutor.create` the `throw` raised when the
user declines the overwrite prompt sits inside the same `try` block as the
`fs.access` probe, so the `catch { /* File doesn't exist, proceed */ }`
swallows it and the write happens anyway.  With `f.txt` containing `old`
and the confirmation answered `No` (`confirm := false`), the operation is
counted as a success and the file is overwritten with `new` — contradicting
the claim (which the Inspector-Diff-lfirst variant implements correctly). -/
theorem declined_overwrite_still_writes :
    OperationsExecutor.executeAll false [String.toList "ws"]
      [ { type := .create, file := some (String.toList "f.txt"),
          content := some (String.toList "new") } ]
      ⟨[([String.toList "ws", String.toList "f.txt"], String.toList "old")],
        []⟩ =
    ⟨1, 0,
      [ { type := .create, file := some (String.toList "f.txt"),
          content := some (String.toList "new") } ],
      ⟨[([String.toList "ws", String.toList "f.txt"], String.toList "new")],
        [[], [String.toList "ws"]]⟩⟩ := by
  decide

/-! ## Claim C7: commit flips the status before the result is known -/

/-- Claim C7: `TaskManager.commitTask` sends `git add .` and `git commit`
to a terminal — fire and forget — and sets the status to `committed`
unconditionally.  Here the external action reports failure
(`gitOk := false`), the current task is in status `applied`, and the status
still becomes `committed`; the repository's own review notes flag exactly
this („Commit/Undo bez weryfikacji").  The claim describes the spec's
required behaviour; the code is wrong. -/
theorem commitTask_flips_status_despite_git_failure :
    TaskManager.commitTask false
      ⟨[⟨1, ['A'], none, 1, [], .applied, [], []⟩],
        some ⟨1, ['A'], none, 1, [], .applied, [], []⟩, 5⟩ =
    .ok ⟨[⟨1, ['A'], none, 1, [], .committed, [], []⟩],
        some ⟨1, ['A'], none, 1, [], .committed, [], []⟩, 5⟩ := by
  rfl

/-! ## Task-ledger lemmas

Facts about `saveTask`, the recency sort and the name lookup, shared by the
terminal-status and name-reuse claims. -/

section LedgerLemmas

open TaskManager

theorem insertDesc_mem (x t : Task) : ∀ l : List Task,
    x ∈ insertDesc t l ↔ x = t ∨ x ∈ l := by
  intro l
  induction l with
  | nil => simp [insertDesc]
  | cons u us ih =>
    by_cases h : u.createdAt ≤ t.createdAt
    · simp [insertDesc, h, List.mem_cons]
    · simp only [insertDesc, h, if_false, List.mem_cons, ih]
      tauto

theorem sortDesc_mem (x : Task) : ∀ l : List Task,
    x ∈ sortDesc l ↔ x ∈ l := by
  intro l
  induction l with
  | nil => simp [sortDesc]
  | cons u us ih => simp [sortDesc, insertDesc_mem, ih]

theorem findTaskByName_mem (name : List Char) (store : List Task)
    (t : Task) (h : findTaskByName name store = some t) :
    t ∈ store ∧ t.name = name := by
  have hmem := List.mem_of_find?_eq_some h
  have hpred := List.find?_some h
  refine ⟨?_, by simpa using hpred⟩
  exact (sortDesc_mem t store).mp (List.mem_of_mem_take hmem)

theorem saveTask_mem (t : Task) (store : List Task) (u : Task)
    (h : u ∈ saveTask t store) : u = t ∨ u ∈ store := by
  rw [saveTask] at h
  by_cases hany : store.any (fun v => decide (v.id = t.id)) = true
  · rw [if_pos hany] at h
    obtain ⟨v, hv, hgv⟩ := List.mem_map.mp h
    by_cases hid : v.id = t.id
    · left; rw [← hgv, if_pos hid]
    · right; rw [← hgv, if_neg hid]; exact hv
  · rw [if_neg hany] at h
    rcases List.mem_append.mp h with h1 | h1
    · right; exact h1
    · left; simpa using h1

theorem saveTask_fresh (t : Task) (store : List Task)
    (h : ∀ u ∈ store, u.id ≠ t.id) : saveTask t store = store ++ [t] := by
  rw [saveTask, if_neg]
  intro hany
  rw [List.any_eq_true] at hany
  obtain ⟨u, hu, hid⟩ := hany
  exact h u hu (by simpa using hid)

theorem insertDesc_map (g : Task → Task) (t : Task)
    (hgt : (g t).createdAt = t.createdAt) : ∀ l : List Task,
    (∀ u ∈ l, (g u).createdAt = u.createdAt) →
    insertDesc (g t) (l.map g) = (insertDesc t l).map g := by
  intro l
  induction l with
  | nil => intro _; rfl
  | cons u us ih =>
    intro hgl
    have hgu := hgl u (List.mem_cons_self u us)
    by_cases h : u.createdAt ≤ t.createdAt
    · simp [insertDesc, h, hgt, hgu]
    · simp only [List.map_cons, insertDesc, hgt, hgu, h, if_false]
      rw [ih (fun v hv => hgl v (List.mem_cons_of_mem u hv))]

theorem sortDesc_map (g : Task → Task) : ∀ l : List Task,
    (∀ u ∈ l, (g u).createdAt = u.createdAt) →
    sortDesc (l.map g) = (sortDesc l).map g := by
  intro l
  induction l with
  | nil => intro _; rfl
  | cons u us ih =>
    intro hgl
    simp only [List.map_cons, sortDesc]
    rw [ih (fun v hv => hgl v (List.mem_cons_of_mem u hv)),
      insertDesc_map g u (hgl u (List.mem_cons_self u us)) (sortDesc us)
        (fun v hv => hgl v (List.mem_cons_of_mem u
          ((sortDesc_mem v us).mp hv)))]

theorem find?_map_congr (g : Task → Task) (pa pb : Task → Bool) :
    ∀ L : List Task, (∀ u ∈ L, pb (g u) = pa u) →
    (L.map g).find? pb = (L.find? pa).map g := by
  intro L
  induction L with
  | nil => intro _; rfl
  | cons u us ih =>
    intro hL
    have hu := hL u (List.mem_cons_self u us)
    by_cases h : pa u = true
    · rw [List.map_cons, List.find?_cons_of_pos _ (hu.trans h),
        List.find?_cons_of_pos _ h, Option.map_some']
    · rw [List.map_cons,
        List.find?_cons_of_neg _ (by rw [hu]; simpa using h),
        List.find?_cons_of_neg _ (by simpa using h),
        ih (fun v hv => hL v (List.mem_cons_of_mem u hv))]

theorem findTaskByName_map (g : Task → Task) (name : List Char)
    (store : List Task)
    (hca : ∀ u ∈ store, (g u).createdAt = u.createdAt)
    (hna : ∀ u ∈ store, (g u).name = u.name) :
    findTaskByName name (store.map g) =
      (findTaskByName name store).map g := by
  rw [findTaskByName, findTaskByName, loadRecentTasks, loadRecentTasks,
    sortDesc_map g store hca, ← List.map_take]
  exact find?_map_congr g _ _ _ (fun u hu => by
    have humem : u ∈ store :=
      (sortDesc_mem u store).mp (List.mem_of_mem_take hu)
    rw [hna u humem])

theorem sortDesc_append_max (t : Task) : ∀ l : List Task,
    (∀ u ∈ l, u.createdAt < t.createdAt) →
    sortDesc (l ++ [t]) = t :: sortDesc l := by
  intro l
  induction l with
  | nil => intro _; rfl
  | cons u us ih =>
    intro hl
    have hu := hl u (List.mem_cons_self u us)
    rw [List.cons_append, sortDesc,
      ih (fun v hv => hl v (List.mem_cons_of_mem u hv))]
    rw [sortDesc, insertDesc, if_neg (by omega)]

end LedgerLemmas

/-! ## Claim C8: are `committed` and `undone` terminal? -/

/-- Claim C8, counterexample: `TaskManager.addOperations` sets the status
to `applied` unconditionally, so it transitions a `committed` task straight
back to `applied` — `committed` is not a terminal state of the
implementation's status machine. -/
theorem addOperations_leaves_committed :
    TaskManager.addOperations
      [{ type := .delete, file := some (String.toList "x.ts") }]
      ⟨[⟨1, ['A'], none, 1, [], .committed, [], []⟩],
        some ⟨1, ['A'], none, 1, [], .committed, [], []⟩, 5⟩ =
    .ok ⟨[⟨1, ['A'], none, 1,
           [{ type := .delete, file := some (String.toList "x.ts") }],
           .applied, [String.toList "x.ts"], []⟩],
        some ⟨1, ['A'], none, 1,
           [{ type := .delete, file := some (String.toList "x.ts") }],
           .applied, [String.toList "x.ts"], []⟩, 5⟩ := by
  rfl

section TerminalClaim

open TaskManager

/-- Claim C8 (amended): with the current task in status `committed` or
`undone`, and a store with distinct task ids whose ids precede the clock,
every Ledger operation except `addOperations` leaves that status in place:
`commitTask` and `undoTask` throw their status-guard error, starting a task
by name never changes any stored status (the fresh-task branch appends one
`pending` record), and `addIncludedFiles` only touches `includedFiles`.
`addOperations`, however, resets the current task's status to `applied`
whatever it was — `committed` and `undone` are terminal only while no
operations are added, not by construction. -/
theorem terminal_status_only_addOperations_escapes (s : TMState) (t : Task)
    (g c : Bool) (paths : List (List Char)) (ops : List FileOperation)
    (name : List Char) (d : Option (List Char))
    (hcur : s.current = some t)
    (hst : t.status = .committed ∨ t.status = .undone)
    (hids : ∀ u ∈ s.store, ∀ v ∈ s.store, u.id = v.id → u = v)
    (hclock : ∀ u ∈ s.store, u.id < s.now) :
    commitTask g s = .error (String.toList "No applied task to commit") ∧
    undoTask c s = .error (String.toList "No applied task to undo") ∧
    currentStatus (addIncludedFiles paths s) = some t.status ∧
    ((startTask name d s).2.store.map (fun u => u.status) =
        s.store.map (fun u => u.status) ∨
      (startTask name d s).2.store.map (fun u => u.status) =
        s.store.map (fun u => u.status) ++ [.pending]) ∧
    currentStatus (addOperations ops s) = some .applied := by
  have hne : t.status ≠ .applied := by
    rcases hst with h | h <;> simp [h]
  refine ⟨?_, ?_, ?_, ?_, ?_⟩
  · rw [commitTask, hcur]
    simp [hne]
  · rw [undoTask, hcur]
    simp [hne]
  · rw [addIncludedFiles, hcur]
    rfl
  · cases hfind : findTaskByName name s.store with
    | none =>
      right
      simp only [startTask, hfind]
      rw [saveTask_fresh _ s.store
        (fun u hu => Nat.ne_of_lt (hclock u hu))]
      simp
    | some ex =>
      have hexmem := (findTaskByName_mem name s.store ex hfind).1
      by_cases hmerge : descTruthy d = true ∧
          ¬ descTruthy ex.description = true
      · left
        simp only [startTask, hfind, if_pos hmerge]
        rw [saveTask, if_pos (List.any_eq_true.mpr
          ⟨ex, hexmem, by simp⟩)]
        rw [List.map_map]
        refine List.map_congr_left (fun u hu => ?_)
        by_cases hid : u.id = ex.id
        · have : u = ex := hids u hu ex hexmem hid
          subst this
          simp [hid]
        · simp [Function.comp, hid]
      · left
        simp only [startTask, hfind, if_neg hmerge]
  · rw [addOperations, hcur]
    rfl

/-- Claim C8, witness: the amended theorem applied to a one-task store
whose task (id 1, created at time 1, clock at 5) is `committed`. -/
theorem terminal_status_only_addOperations_escapes_witness :
    commitTask false
      ⟨[⟨1, ['A'], none, 1, [], .committed, [], []⟩],
        some ⟨1, ['A'], none, 1, [], .committed, [], []⟩, 5⟩ =
      .error (String.toList "No applied task to commit") ∧
    undoTask false
      ⟨[⟨1, ['A'], none, 1, [], .committed, [], []⟩],
        some ⟨1, ['A'], none, 1, [], .committed, [], []⟩, 5⟩ =
      .error (String.toList "No applied task to undo") ∧
    currentStatus (addIncludedFiles [String.toList "a.ts"]
      ⟨[⟨1, ['A'], none, 1, [], .committed, [], []⟩],
        some ⟨1, ['A'], none, 1, [], .committed, [], []⟩, 5⟩) =
      some TaskStatus.committed ∧
    (((startTask ['B'] none
        ⟨[⟨1, ['A'], none, 1, [], .committed, [], []⟩],
          some ⟨1, ['A'], none, 1, [], .committed, [], []⟩, 5⟩).2.store.map
        (fun u => u.status) = [TaskStatus.committed]) ∨
      ((startTask ['B'] none
        ⟨[⟨1, ['A'], none, 1, [], .committed, [], []⟩],
          some ⟨1, ['A'], none, 1, [], .committed, [], []⟩, 5⟩).2.store.map
        (fun u => u.status) =
        [TaskStatus.committed, TaskStatus.pending])) ∧
    currentStatus (addOperations
      [{ type := .delete, file := some (String.toList "x.ts") }]
      ⟨[⟨1, ['A'], none, 1, [], .committed, [], []⟩],
        some ⟨1, ['A'], none, 1, [], .committed, [], []⟩, 5⟩) =
      some TaskStatus.applied :=
  terminal_status_only_addOperations_escapes
    ⟨[⟨1, ['A'], none, 1, [], .committed, [], []⟩],
      some ⟨1, ['A'], none, 1, [], .committed, [], []⟩, 5⟩
    ⟨1, ['A'], none, 1, [], .committed, [], []⟩
    false false [String.toList "a.ts"]
    [{ type := .delete, file := some (String.toList "x.ts") }]
    ['B'] none rfl (Or.inl rfl) (by decide) (by decide)

end TerminalClaim

/-! ## Claim C9: starting a task twice by name reuses it -/

section ReuseClaim

open TaskManager

/-- Claim C9: calling `startTask` twice with the same name returns a task
with the same id both times, and the second call creates no new store
record.  Hypotheses: every stored task was created before the current clock
value (`Date.now()` is monotone, and a task's id is its creation time), and
stored ids are unique.  The second call finds the task persisted by the
first call by exact name match — it is the most recent record — and reuses
it instead of creating a fresh id. -/
theorem startTask_reuses_by_name (s : TMState) (name : List Char)
    (d1 d2 : Option (List Char))
    (hclock : ∀ u ∈ s.store, u.createdAt < s.now ∧ u.id < s.now)
    (hids : ∀ u ∈ s.store, ∀ v ∈ s.store, u.id = v.id → u = v) :
    (startTask name d2 (startTask name d1 s).2).1.id =
      (startTask name d1 s).1.id ∧
    (startTask name d2 (startTask name d1 s).2).2.store.length =
      (startTask name d1 s).2.store.length := by
  cases hfind : findTaskByName name s.store with
  | some ex =>
    have hexmem := (findTaskByName_mem name s.store ex hfind).1
    by_cases hmerge : descTruthy d1 = true ∧
        ¬ descTruthy ex.description = true
    · simp only [startTask, hfind, if_pos hmerge]
      have hany : s.store.any
          (fun v => decide (v.id = Task.id { ex with description := d1 }))
          = true :=
        List.any_eq_true.mpr ⟨ex, hexmem, by simp⟩
      have hsave : saveTask { ex with description := d1 } s.store =
          s.store.map (fun u =>
            if u.id = Task.id { ex with description := d1 } then
              { ex with description := d1 } else u) := by
        rw [saveTask, if_pos hany]
      rw [hsave]
      have hca : ∀ u ∈ s.store,
          Task.createdAt ((fun u =>
            if u.id = Task.id { ex with description := d1 } then
              { ex with description := d1 } else u) u) = u.createdAt := by
        intro u hu
        by_cases hid : u.id = ex.id
        · have : u = ex := hids u hu ex hexmem hid
          subst this
          simp
        · simp only [if_neg (by simpa using hid)]
      have hna : ∀ u ∈ s.store,
          Task.name ((fun u =>
            if u.id = Task.id { ex with description := d1 } then
              { ex with description := d1 } else u) u) = u.name := by
        intro u hu
        by_cases hid : u.id = ex.id
        · have : u = ex := hids u hu ex hexmem hid
          subst this
          simp
        · simp only [if_neg (by simpa using hid)]
      have hfind2 : findTaskByName name (s.store.map (fun u =>
          if u.id = Task.id { ex with description := d1 } then
            { ex with description := d1 } else u)) =
          some { ex with description := d1 } := by
        rw [findTaskByName_map _ name s.store hca hna, hfind]
        simp
      have hnm2 : ¬ (descTruthy d2 = true ∧
          ¬ descTruthy (Task.description
            { ex with description := d1 }) = true) := by
        rintro ⟨_, hnd⟩
        exact hnd (by simpa using hmerge.1)
      simp only [startTask, hfind2, if_neg hnm2]
      simp
    · simp only [startTask, hfind, if_neg hmerge]
      by_cases hmerge2 : descTruthy d2 = true ∧
          ¬ descTruthy ex.description = true
      · simp only [startTask, hfind, if_pos hmerge2]
        refine ⟨by trivial, ?_⟩
        have hany : s.store.any
            (fun v => decide (v.id = Task.id { ex with description := d2 }))
            = true :=
          List.any_eq_true.mpr ⟨ex, hexmem, by simp⟩
        rw [saveTask, if_pos hany]
        simp
      · simp only [startTask, hfind, if_neg hmerge2]
        exact ⟨by trivial, by trivial⟩
  | none =>
    simp only [startTask, hfind]
    rw [saveTask_fresh _ s.store
      (fun u hu => Nat.ne_of_lt (hclock u hu).2)]
    have hfind2 : findTaskByName name (s.store ++
        [(⟨s.now, name, d1, s.now, [], .pending, [], []⟩ : Task)]) =
        some (⟨s.now, name, d1, s.now, [], .pending, [], []⟩ : Task) := by
      rw [findTaskByName, loadRecentTasks,
        sortDesc_append_max _ s.store (fun u hu => (hclock u hu).1)]
      rw [show (200 : Nat) = 199 + 1 from rfl, List.take_succ_cons]
      exact List.find?_cons_of_pos _ (by simp)
    by_cases hmerge2 : descTruthy d2 = true ∧
        ¬ descTruthy (Task.description
          (⟨s.now, name, d1, s.now, [], .pending, [], []⟩ : Task)) = true
    · simp only [startTask, hfind2, if_pos hmerge2]
      refine ⟨by trivial, ?_⟩
      have hany : (s.store ++
          [(⟨s.now, name, d1, s.now, [], .pending, [], []⟩ : Task)]).any
          (fun v => decide (v.id = s.now)) = true :=
        List.any_eq_true.mpr ⟨_, List.mem_append_right _
          (List.mem_cons_self _ []), by simp⟩
      rw [saveTask, if_pos (by simpa using hany)]
      simp
    · simp only [startTask, hfind2, if_neg hmerge2]
      exact ⟨by trivial, by trivial⟩

/-- Claim C9, witness: starting `A` twice from an empty store (clock at 7)
returns id 7 both times, and the second call adds no record. -/
theorem startTask_reuses_by_name_witness :
    (startTask ['A'] none (startTask ['A'] none ⟨[], none, 7⟩).2).1.id =
      (startTask ['A'] none ⟨[], none, 7⟩).1.id ∧
    (startTask ['A'] none
        (startTask ['A'] none ⟨[], none, 7⟩).2).2.store.length =
      (startTask ['A'] none ⟨[], none, 7⟩).2.store.length :=
  startTask_reuses_by_name ⟨[], none, 7⟩ ['A'] none none
    (by intro u hu; exact absurd hu (List.not_mem_nil u))
    (by intro u hu; exact absurd hu (List.not_mem_nil u))

end ReuseClaim

/-! ## Matcher lemmas

Supporting facts about the backtracking combinators, building up to the
FILE-block claim: where the overwrite pattern can and cannot match. -/

theorem dotPlus_some_exists {β : Type}
    (k : List Char → List Char → Option β) (s : List Char) (b : β)
    (h : dotPlus k s = some b) : ∃ cap r, k cap r = some b := by
  induction s generalizing k with
  | nil => simp [dotPlus] at h
  | cons c rest ih =>
    rw [dotPlus] at h
    by_cases hc : c = '\n'
    · rw [if_pos hc] at h; exact absurd h (by simp)
    · rw [if_neg hc] at h
      cases hk : k [c] rest with
      | some b' =>
        rw [hk] at h
        simp only [Option.some.injEq] at h
        exact ⟨[c], rest, by rw [hk, h]⟩
      | none =>
        rw [hk] at h
        obtain ⟨cap, r, hcr⟩ := ih (fun cap r => k (c :: cap) r) h
        exact ⟨c :: cap, r, hcr⟩

theorem wsGreedy_some_exists {β : Type} (k : List Char → Option β)
    (s : List Char) (b : β) (h : wsGreedy k s = some b) :
    ∃ r, k r = some b := by
  induction s with
  | nil => exact ⟨[], by simpa [wsGreedy] using h⟩
  | cons c rest ih =>
    rw [wsGreedy] at h
    by_cases hc : wsChar c = true
    · rw [if_pos hc] at h
      cases hw : wsGreedy k rest with
      | some b' =>
        rw [hw] at h
        simp only [Option.some.injEq] at h
        exact ih (by rw [hw, h])
      | none =>
        rw [hw] at h
        exact ⟨c :: rest, h⟩
    · rw [if_neg hc] at h
      exact ⟨c :: rest, h⟩

theorem beginsWith_extend {α : Type} [DecidableEq α] (lit t v : List α)
    (h : beginsWith lit t = true) : beginsWith lit (t ++ v) = true := by
  obtain ⟨u, rfl⟩ := (beginsWith_iff lit t).mp h
  rw [List.append_assoc]
  exact beginsWith_append_self lit (u ++ v)

theorem containsLit_empty_false {α : Type} [DecidableEq α]
    (lit : List α) (hne : lit ≠ []) : containsLit lit [] = false := by
  obtain ⟨a, as, rfl⟩ := List.exists_cons_of_ne_nil hne
  simp [containsLit, beginsWith]

theorem lazyUptoStop_decomp (endLit stopLit : List Char) : ∀ s cap r,
    lazyUptoStop endLit stopLit s = some (cap, r) →
    s = cap ++ endLit ++ r := by
  intro s
  induction s with
  | nil =>
    intro cap r h
    rw [lazyUptoStop] at h
    by_cases hb : beginsWith endLit [] = true
    · rw [if_pos hb] at h
      obtain ⟨t, ht⟩ := (beginsWith_iff endLit []).mp hb
      have hend : endLit = [] := by
        cases endLit with
        | nil => rfl
        | cons a as => simp at ht
      simp only [Option.some.injEq, Prod.mk.injEq] at h
      rw [← h.1, ← h.2, hend]
      rfl
    · rw [if_neg hb] at h; exact absurd h (by simp)
  | cons c rest ih =>
    intro cap r h
    rw [lazyUptoStop] at h
    by_cases hend : beginsWith endLit (c :: rest) = true
    · rw [if_pos hend] at h
      obtain ⟨t, ht⟩ := (beginsWith_iff endLit (c :: rest)).mp hend
      rw [ht, dropLit_append] at h
      simp only [Option.getD_some, Option.some.injEq, Prod.mk.injEq] at h
      rw [← h.1, ← h.2]
      simpa using ht
    · rw [if_neg hend] at h
      by_cases hstop : beginsWith stopLit (c :: rest) = true
      · rw [if_pos hstop] at h; exact absurd h (by simp)
      · rw [if_neg hstop] at h
        cases hrec : lazyUptoStop endLit stopLit rest with
        | none => rw [hrec] at h; exact absurd h (by simp)
        | some pr =>
          obtain ⟨cap', r'⟩ := pr
          rw [hrec] at h
          simp only [Option.some.injEq, Prod.mk.injEq] at h
          rw [← h.1, ← h.2]
          simpa using ih cap' r' hrec

/-- The interior captured by the overwrite pattern never contains the stop
literal (`<<<SEARCH>>>`): the negative lookahead refuses to consume any
position where it starts. -/
theorem lazyUptoStop_no_stop (endLit stopLit : List Char)
    (hsne : stopLit ≠ []) : ∀ s cap r,
    lazyUptoStop endLit stopLit s = some (cap, r) →
    containsLit stopLit cap = false := by
  intro s
  induction s with
  | nil =>
    intro cap r h
    rw [lazyUptoStop] at h
    by_cases hb : beginsWith endLit [] = true
    · rw [if_pos hb] at h
      simp only [Option.some.injEq, Prod.mk.injEq] at h
      rw [← h.1]
      exact containsLit_empty_false stopLit hsne
    · rw [if_neg hb] at h; exact absurd h (by simp)
  | cons c rest ih =>
    intro cap r h
    rw [lazyUptoStop] at h
    by_cases hend : beginsWith endLit (c :: rest) = true
    · rw [if_pos hend] at h
      simp only [Option.some.injEq, Prod.mk.injEq] at h
      rw [← h.1]
      exact containsLit_empty_false stopLit hsne
    · rw [if_neg hend] at h
      by_cases hstop : beginsWith stopLit (c :: rest) = true
      · rw [if_pos hstop] at h; exact absurd h (by simp)
      · rw [if_neg hstop] at h
        cases hrec : lazyUptoStop endLit stopLit rest with
        | none => rw [hrec] at h; exact absurd h (by simp)
        | some pr =>
          obtain ⟨cap', r'⟩ := pr
          rw [hrec] at h
          simp only [Option.some.injEq, Prod.mk.injEq] at h
          rw [← h.1, containsLit, ih cap' r' hrec, Bool.or_false]
          cases hb : beginsWith stopLit (c :: cap') with
          | false => rfl
          | true =>
            exfalso
            have hdec := lazyUptoStop_decomp endLit stopLit rest cap' r'
              hrec
            have : beginsWith stopLit (c :: rest) = true := by
              have hshape : c :: rest = (c :: cap') ++ (endLit ++ r') := by
                rw [hdec]; simp
              rw [hshape]
              exact beginsWith_extend stopLit (c :: cap') (endLit ++ r') hb
            exact absurd this (by simpa using hstop)

theorem containsLit_append_right {α : Type} [DecidableEq α]
    (lit : List α) : ∀ t v, containsLit lit t = true →
    containsLit lit (t ++ v) = true := by
  intro t
  induction t with
  | nil =>
    intro v h
    rw [containsLit] at h
    obtain ⟨u, hu⟩ := (beginsWith_iff lit []).mp h
    have : lit = [] := by
      cases lit with
      | nil => rfl
      | cons a as => simp at hu
    subst this
    cases v with
    | nil => rfl
    | cons c cs => simp [containsLit, beginsWith]
  | cons c t' ih =>
    intro v h
    rw [containsLit] at h
    rcases (Bool.or_eq_true _ _).mp h with h1 | h1
    · rw [List.cons_append, containsLit]
      have hbw : beginsWith lit (c :: (t' ++ v)) = true := by
        have hext := beginsWith_extend lit (c :: t') v h1
        simpa using hext
      rw [hbw, Bool.true_or]
    · rw [List.cons_append, containsLit, ih v h1, Bool.or_true]

theorem containsLit_append_left {α : Type} [DecidableEq α]
    (lit : List α) : ∀ x t, containsLit lit t = true →
    containsLit lit (x ++ t) = true := by
  intro x
  induction x with
  | nil => intro t h; exact h
  | cons c x' ih =>
    intro t h
    rw [List.cons_append, containsLit, ih t h, Bool.or_true]

theorem trimL_decomp (s : List Char) :
    ∃ a b, s = a ++ trimL s ++ b := by
  refine ⟨s.takeWhile wsChar,
    ((s.dropWhile wsChar).reverse.takeWhile wsChar).reverse, ?_⟩
  rw [trimL]
  conv_lhs => rw [← List.takeWhile_append_dropWhile wsChar s]
  rw [List.append_assoc]
  congr 1
  have hrev : (s.dropWhile wsChar).reverse =
      (s.dropWhile wsChar).reverse.takeWhile wsChar ++
      (s.dropWhile wsChar).reverse.dropWhile wsChar :=
    (List.takeWhile_append_dropWhile wsChar
      (s.dropWhile wsChar).reverse).symm
  calc s.dropWhile wsChar
      = (s.dropWhile wsChar).reverse.reverse := by rw [List.reverse_reverse]
    _ = ((s.dropWhile wsChar).reverse.takeWhile wsChar ++
        (s.dropWhile wsChar).reverse.dropWhile wsChar).reverse := by
        rw [← hrev]
    _ = ((s.dropWhile wsChar).reverse.dropWhile wsChar).reverse ++
        ((s.dropWhile wsChar).reverse.takeWhile wsChar).reverse := by
        rw [List.reverse_append]

theorem containsLit_trimL_false (lit s : List Char)
    (h : containsLit lit s = false) :
    containsLit lit (trimL s) = false := by
  cases hc : containsLit lit (trimL s) with
  | false => rfl
  | true =>
    exfalso
    obtain ⟨a, b, hab⟩ := trimL_decomp s
    have : containsLit lit s = true := by
      rw [hab, List.append_assoc]
      exact containsLit_append_left lit a _
        (containsLit_append_right lit _ b hc)
    rw [this] at h
    exact absurd h (by simp)

/-- Claim C10, part (i) of the amended claim: whenever the overwrite
pattern matches, the content it captures contains no `<<<SEARCH>>>` marker
— the negative lookahead in `OVERWRITE_RE` does guarantee this much. -/
theorem matchOvrAt_content_no_search (s : List Char) (op : FileOperation)
    (r : List Char) (h : matchOvrAt s = some (op, r)) :
    ∃ c, op.content = some c ∧ containsLit searchMark c = false := by
  rw [matchOvrAt] at h
  cases hdl : dropLit fileMark s with
  | none => rw [hdl] at h; exact absurd h (by simp)
  | some t =>
    rw [hdl] at h
    simp only [Option.some_bind] at h
    obtain ⟨u, hu⟩ := wsGreedy_some_exists _ t (op, r) h
    obtain ⟨cap, rr, hk⟩ := dotPlus_some_exists _ u (op, r) hu
    cases hg : dropLit gt3 rr with
    | none => rw [hg] at hk; exact absurd hk (by simp)
    | some r2 =>
      rw [hg] at hk
      simp only [Option.some_bind] at hk
      cases hl : lazyUptoStop endMark searchMark r2 with
      | none => rw [hl] at hk; exact absurd hk (by simp)
      | some pr =>
        obtain ⟨content, r3⟩ := pr
        rw [hl] at hk
        simp only [Option.map_some', Option.some.injEq,
          Prod.mk.injEq] at hk
        refine ⟨trimL content, ?_, ?_⟩
        · rw [← hk.1]
        · exact containsLit_trimL_false searchMark content
            (lazyUptoStop_no_stop endMark searchMark (by simp [searchMark])
              r2 content r3 hl)

/-- A lazy `(.+?)` group cannot cross the `>>>` that ends the path line of
a canonical multi-line FILE block: each of the splits the quantifier can
reach inside `>>>` followed by a newline makes the continuation fail, and
the newline stops any further growth. -/
theorem dotPlus_gt3_block {β : Type}
    (k : List Char → List Char → Option β) (T : List Char)
    (h2 : ∀ cap, k cap ('>' :: '>' :: '\n' :: T) = none)
    (h1 : ∀ cap, k cap ('>' :: '\n' :: T) = none)
    (h0 : ∀ cap, k cap ('\n' :: T) = none) :
    dotPlus k ('>' :: '>' :: '>' :: '\n' :: T) = none := by
  rw [dotPlus, if_neg (by decide), h2, dotPlus, if_neg (by decide), h1,
    dotPlus, if_neg (by decide), h0, dotPlus, if_pos rfl]

theorem dotPlus_path_block {β : Type} (T : List Char) :
    ∀ (p : List Char) (k : List Char → List Char → Option β),
    (∀ c ∈ p, c ≠ '\n' ∧ c ≠ '>') →
    (∀ cap c r, c ≠ '>' → k cap (c :: r) = none) →
    (∀ cap, k cap ('>' :: '>' :: '>' :: '\n' :: T) = none) →
    (∀ cap, k cap ('>' :: '>' :: '\n' :: T) = none) →
    (∀ cap, k cap ('>' :: '\n' :: T) = none) →
    dotPlus k (p ++ '>' :: '>' :: '>' :: '\n' :: T) = none := by
  intro p
  induction p with
  | nil =>
    intro k _ hgt h3 h2 h1
    exact dotPlus_gt3_block k T h2 h1
      (fun cap => hgt cap '\n' T (by decide))
  | cons c p' ih =>
    intro k hp hgt h3 h2 h1
    have hc := hp c (List.mem_cons_self c p')
    rw [List.cons_append, dotPlus, if_neg hc.1]
    have hfirst : k [c] (p' ++ '>' :: '>' :: '>' :: '\n' :: T) = none := by
      cases p' with
      | nil => exact h3 [c]
      | cons c' p'' =>
        exact hgt [c] c' _ (hp c' (List.mem_cons_of_mem c
          (List.mem_cons_self c' p''))).2
    rw [hfirst]
    exact ih (fun cap r => k (c :: cap) r)
      (fun d hd => hp d (List.mem_cons_of_mem c hd))
      (fun cap d r hd => hgt (c :: cap) d r hd)
      (fun cap => h3 (c :: cap))
      (fun cap => h2 (c :: cap))
      (fun cap => h1 (c :: cap))

/-- A lazy `(.+?)` group walks exactly through a `>`-free, newline-free
nonempty path and hands the continuation the rest, provided the
continuation fails on every rest that does not start with `>` and succeeds
on the full path. -/
theorem dotPlus_reach {β : Type} (v : β) : ∀ (p : List Char)
    (k : List Char → List Char → Option β) (r0 : List Char),
    p ≠ [] → (∀ c ∈ p, c ≠ '\n' ∧ c ≠ '>') →
    (∀ cap c r, c ≠ '>' → k cap (c :: r) = none) →
    k p r0 = some v →
    dotPlus k (p ++ r0) = some v := by
  intro p
  induction p with
  | nil => intro k r0 hne; exact absurd rfl hne
  | cons c p' ih =>
    intro k r0 _ hp hfail hsucc
    have hc := hp c (List.mem_cons_self c p')
    rw [List.cons_append, dotPlus, if_neg hc.1]
    cases p' with
    | nil => simp only [List.nil_append, hsucc]
    | cons c' p'' =>
      have hfirst : k [c] (c' :: (p'' ++ r0)) = none :=
        hfail [c] c' _ (hp c' (List.mem_cons_of_mem c
          (List.mem_cons_self c' p''))).2
      rw [show (c' :: p'') ++ r0 = c' :: (p'' ++ r0) from rfl, hfirst]
      exact ih (fun cap r => k (c :: cap) r) r0 (by simp)
        (fun d hd => hp d (List.mem_cons_of_mem c hd))
        (fun cap d r hd => hfail (c :: cap) d r hd) hsucc

/-- A lazy `[\s\S]*?` capture stops exactly at a marker that begins with
`<` when the text before it is `<`-free. -/
theorem lazyUpto_exact (lit : List Char) (tl : List Char)
    (hlit : lit = '<' :: tl) : ∀ x v, (∀ c ∈ x, c ≠ '<') →
    lazyUpto lit (x ++ (lit ++ v)) = some (x, v) := by
  intro x
  induction x with
  | nil =>
    intro v _
    rw [List.nil_append, hlit, List.cons_append, lazyUpto, ← List.cons_append,
      ← hlit, if_pos (beginsWith_append_self lit v), dropLit_append]
    rfl
  | cons c x' ih =>
    intro v hx
    have hc := hx c (List.mem_cons_self c x')
    have hb : beginsWith lit (c :: (x' ++ (lit ++ v))) = false := by
      rw [hlit]
      simp [beginsWith, Ne.symm hc]
    rw [List.cons_append, lazyUpto, if_neg (by simp [hb]),
      ih v (fun d hd => hx d (List.mem_cons_of_mem c hd))]

/-- The overwrite interior rejects a tail that opens with a newline
followed by the `<<<SEARCH>>>` marker: the lookahead blocks before any
`<<<END>>>` can be reached. -/
theorem lazyUptoStop_at_search (X : List Char) :
    lazyUptoStop endMark searchMark ('\n' :: (searchMark ++ X)) = none := by
  rw [lazyUptoStop, if_neg (by simp [endMark, beginsWith]),
    if_neg (by simp [searchMark, beginsWith])]
  have hrec : lazyUptoStop endMark searchMark (searchMark ++ X) = none := by
    simp only [searchMark, List.cons_append, List.nil_append]
    rw [lazyUptoStop, if_neg (by simp [endMark, beginsWith]),
      if_pos (by simp [searchMark, beginsWith])]
  rw [hrec]

/-- At a canonical multi-line FILE block — path line, newline, then
`<<<SEARCH>>>` — the overwrite pattern `OVERWRITE_RE` does not match: the
path group cannot cross the newline and the interior is blocked by the
SEARCH lookahead before any `<<<END>>>`. -/
theorem matchOvrAt_canonical_none (p X : List Char)
    (hp : ∀ c ∈ p, wsChar c = false ∧ c ≠ '>') :
    matchOvrAt (fileMark ++ ' ' ::
      (p ++ '>' :: '>' :: '>' :: '\n' :: (searchMark ++ X))) = none := by
  have hp' : ∀ c ∈ ' ' :: p, c ≠ '\n' ∧ c ≠ '>' := by
    intro c hcm
    rcases List.mem_cons.mp hcm with rfl | hcm
    · exact ⟨by decide, by decide⟩
    · refine ⟨?_, (hp c hcm).2⟩
      intro hcn
      have := (hp c hcm).1
      rw [hcn] at this
      simp [wsChar] at this
  have hgt : ∀ (cap : List Char) (c : Char) (r : List Char), c ≠ '>' →
      (dropLit gt3 (c :: r)).bind (fun r2 =>
        (lazyUptoStop endMark searchMark r2).map (fun pr =>
          (({ type := .overwrite, file := trimL cap,
              content := trimL pr.1 } : FileOperation), pr.2))) = none := by
    intro cap c r hc
    rw [show dropLit gt3 (c :: r) = none by
      simp [gt3, dropLit, Ne.symm hc]]
    rfl
  have h3 : ∀ cap : List Char,
      (dropLit gt3 ('>' :: '>' :: '>' :: '\n' :: (searchMark ++ X))).bind
        (fun r2 => (lazyUptoStop endMark searchMark r2).map (fun pr =>
          (({ type := .overwrite, file := trimL cap,
              content := trimL pr.1 } : FileOperation), pr.2))) = none := by
    intro cap
    rw [show dropLit gt3 ('>' :: '>' :: '>' :: '\n' :: (searchMark ++ X)) =
      some ('\n' :: (searchMark ++ X)) by simp [gt3, dropLit]]
    rw [Option.some_bind, lazyUptoStop_at_search X]
    rfl
  have h2 : ∀ cap : List Char,
      (dropLit gt3 ('>' :: '>' :: '\n' :: (searchMark ++ X))).bind
        (fun r2 => (lazyUptoStop endMark searchMark r2).map (fun pr =>
          (({ type := .overwrite, file := trimL cap,
              content := trimL pr.1 } : FileOperation), pr.2))) = none := by
    intro cap
    rw [show dropLit gt3 ('>' :: '>' :: '\n' :: (searchMark ++ X)) =
      none by simp [gt3, dropLit]]
    rfl
  have h1 : ∀ cap : List Char,
      (dropLit gt3 ('>' :: '\n' :: (searchMark ++ X))).bind
        (fun r2 => (lazyUptoStop endMark searchMark r2).map (fun pr =>
          (({ type := .overwrite, file := trimL cap,
              content := trimL pr.1 } : FileOperation), pr.2))) = none := by
    intro cap
    rw [show dropLit gt3 ('>' :: '\n' :: (searchMark ++ X)) =
      none by simp [gt3, dropLit]]
    rfl
  have hinner : dotPlus (fun cap r =>
      (dropLit gt3 r).bind (fun r2 =>
        (lazyUptoStop endMark searchMark r2).map (fun pr =>
          (({ type := .overwrite, file := trimL cap,
              content := trimL pr.1 } : FileOperation), pr.2))))
      (p ++ '>' :: '>' :: '>' :: '\n' :: (searchMark ++ X)) = none :=
    dotPlus_path_block _ p _
      (fun c hc => (hp' c (List.mem_cons_of_mem ' ' hc)))
      hgt h3 h2 h1
  have houter : dotPlus (fun cap r =>
      (dropLit gt3 r).bind (fun r2 =>
        (lazyUptoStop endMark searchMark r2).map (fun pr =>
          (({ type := .overwrite, file := trimL cap,
              content := trimL pr.1 } : FileOperation), pr.2))))
      ((' ' :: p) ++ '>' :: '>' :: '>' :: '\n' :: (searchMark ++ X)) =
      none :=
    dotPlus_path_block _ (' ' :: p) _ hp' hgt h3 h2 h1
  rw [matchOvrAt, dropLit_append, Option.some_bind]
  show wsGreedy (dotPlus fun cap r =>
      (dropLit gt3 r).bind fun r2 =>
      (lazyUptoStop endMark searchMark r2).map fun pr =>
        (({ type := .overwrite, file := trimL cap,
            content := trimL pr.1 } : FileOperation), pr.2))
    (' ' :: (p ++ '>' :: '>' :: '>' :: '\n' :: (searchMark ++ X))) = none
  rw [wsGreedy, if_pos (by decide)]
  have hws : wsGreedy (dotPlus fun cap r =>
      (dropLit gt3 r).bind fun r2 =>
      (lazyUptoStop endMark searchMark r2).map fun pr =>
        (({ type := .overwrite, file := trimL cap,
            content := trimL pr.1 } : FileOperation), pr.2))
      (p ++ '>' :: '>' :: '>' :: '\n' :: (searchMark ++ X)) = none := by
    cases p with
    | nil =>
      simp only [List.nil_append]
      rw [wsGreedy, if_neg (by decide)]
      simpa using hinner
    | cons c p' =>
      have hcw : wsChar c = false :=
        (hp c (List.mem_cons_self c p')).1
      rw [List.cons_append, wsGreedy, if_neg (by simp [hcw])]
      simpa using hinner
  simp only [hws]
  simpa only [List.cons_append] using houter

/-- At a canonical multi-line FILE block with `<`-free search and replace
segments, `SR_RE` matches and captures exactly the path, search and replace
texts (trimmed), leaving exactly the text after `<<<END>>>`. -/
theorem matchSRAt_canonical (p x y rest : List Char) (hpne : p ≠ [])
    (hp : ∀ c ∈ p, wsChar c = false ∧ c ≠ '>')
    (hx : ∀ c ∈ x, c ≠ '<') (hy : ∀ c ∈ y, c ≠ '<') :
    matchSRAt (fileMark ++ ' ' ::
      (p ++ '>' :: '>' :: '>' :: '\n' :: (searchMark ++
        (x ++ (replaceMark ++ (y ++ (endMark ++ rest))))))) =
      some ({ type := .searchReplace, file := trimL p,
              search := trimL x, replace := trimL y }, rest) := by
  have hp' : ∀ c ∈ p, c ≠ '\n' ∧ c ≠ '>' := by
    intro c hcm
    refine ⟨?_, (hp c hcm).2⟩
    intro hcn
    have := (hp c hcm).1
    rw [hcn] at this
    simp [wsChar] at this
  have hsucc : (dropLit gt3
      ('>' :: '>' :: '>' :: '\n' :: (searchMark ++
        (x ++ (replaceMark ++ (y ++ (endMark ++ rest))))))).bind
      (fun r2 => wsGreedy (fun r3 =>
        (dropLit searchMark r3).bind (fun r4 =>
          (lazyUpto replaceMark r4).bind (fun se =>
            (lazyUpto endMark se.2).map (fun re =>
              (({ type := .searchReplace, file := trimL p,
                  search := trimL se.1,
                  replace := trimL re.1 } : FileOperation), re.2))))) r2) =
      some ({ type := .searchReplace, file := trimL p,
              search := trimL x, replace := trimL y }, rest) := by
    rw [show dropLit gt3 ('>' :: '>' :: '>' :: '\n' :: (searchMark ++
        (x ++ (replaceMark ++ (y ++ (endMark ++ rest)))))) =
      some ('\n' :: (searchMark ++
        (x ++ (replaceMark ++ (y ++ (endMark ++ rest)))))) by
        simp [gt3, dropLit]]
    rw [Option.some_bind, wsGreedy, if_pos (by decide)]
    have hk3 : (dropLit searchMark (searchMark ++
        (x ++ (replaceMark ++ (y ++ (endMark ++ rest)))))).bind
        (fun r4 => (lazyUpto replaceMark r4).bind (fun se =>
          (lazyUpto endMark se.2).map (fun re =>
            (({ type := .searchReplace, file := trimL p,
                search := trimL se.1,
                replace := trimL re.1 } : FileOperation), re.2)))) =
        some ({ type := .searchReplace, file := trimL p,
                search := trimL x, replace := trimL y }, rest) := by
      rw [dropLit_append, Option.some_bind,
        lazyUpto_exact replaceMark _ rfl x _ hx, Option.some_bind,
        lazyUpto_exact endMark _ rfl y rest hy]
      rfl
    have hnws : wsGreedy (fun r3 =>
        (dropLit searchMark r3).bind (fun r4 =>
          (lazyUpto replaceMark r4).bind (fun se =>
            (lazyUpto endMark se.2).map (fun re =>
              (({ type := .searchReplace, file := trimL p,
                  search := trimL se.1,
                  replace := trimL re.1 } : FileOperation), re.2)))))
        (searchMark ++
          (x ++ (replaceMark ++ (y ++ (endMark ++ rest))))) =
        some ({ type := .searchReplace, file := trimL p,
                search := trimL x, replace := trimL y }, rest) := by
      simp only [searchMark, List.cons_append, List.nil_append]
      rw [wsGreedy, if_neg (by decide)]
      simpa only [searchMark, List.cons_append, List.nil_append] using hk3
    rw [hnws]
  rw [matchSRAt, dropLit_append, Option.some_bind]
  show wsGreedy (dotPlus fun cap r =>
      (dropLit gt3 r).bind fun r2 =>
      wsGreedy (fun r3 =>
        (dropLit searchMark r3).bind fun r4 =>
        (lazyUpto replaceMark r4).bind fun se =>
        (lazyUpto endMark se.2).map fun re =>
          (({ type := .searchReplace, file := trimL cap,
              search := trimL se.1,
              replace := trimL re.1 } : FileOperation), re.2)) r2)
    (' ' :: (p ++ '>' :: '>' :: '>' :: '\n' :: (searchMark ++
      (x ++ (replaceMark ++ (y ++ (endMark ++ rest))))))) =
    some ({ type := .searchReplace, file := trimL p,
            search := trimL x, replace := trimL y }, rest)
  rw [wsGreedy, if_pos (by decide)]
  obtain ⟨c0, p', rfl⟩ := List.exists_cons_of_ne_nil hpne
  have hc0w : wsChar c0 = false :=
    (hp c0 (List.mem_cons_self c0 p')).1
  have hreach := dotPlus_reach
    (({ type := .searchReplace, file := trimL (c0 :: p'),
        search := trimL x, replace := trimL y } : FileOperation), rest)
    (c0 :: p')
    (fun cap r =>
      (dropLit gt3 r).bind fun r2 =>
      wsGreedy (fun r3 =>
        (dropLit searchMark r3).bind fun r4 =>
        (lazyUpto replaceMark r4).bind fun se =>
        (lazyUpto endMark se.2).map fun re =>
          (({ type := .searchReplace, file := trimL cap,
              search := trimL se.1,
              replace := trimL re.1 } : FileOperation), re.2)) r2)
    ('>' :: '>' :: '>' :: '\n' :: (searchMark ++
      (x ++ (replaceMark ++ (y ++ (endMark ++ rest)))))) hpne hp'
    (fun cap c r hc => by
      have hdrop : dropLit gt3 (c :: r) = none := by
        simp [gt3, dropLit, Ne.symm hc]
      simp only [hdrop, Option.none_bind])
    hsucc
  rw [List.cons_append, wsGreedy, if_neg (by simp [hc0w])]
  rw [List.cons_append] at hreach
  simp only [hreach]

/-- Counterexample to the universal form of C10: a single-line FILE block
whose SEARCH marker sits on the path line.  `SR_RE` parses it as a
search-replace, but `OVERWRITE_RE` also matches — its lazy path group
backtracks across `>>>` into the SEARCH marker (whose own `>>>` closes the
path), so `parse` emits a second, overwrite operation with a mangled path
for the same block. -/
theorem single_line_file_block_yields_two_ops :
    OperationsParser.parse (String.toList
      "<<<FILE: a>>><<<SEARCH>>>x<<<REPLACE>>>y<<<END>>>") =
      [{ type := .searchReplace, file := some ['a'], search := some ['x'],
         replace := some ['y'] },
       { type := .overwrite, file := some (String.toList "a>>><<<SEARCH"),
         content := some (String.toList "x<<<REPLACE>>>y") }] := by
  decide

/-- C10: at a canonical FILE block — path line free of whitespace and `>`,
closed by `>>>` and a newline, then `<<<SEARCH>>>`…`<<<REPLACE>>>`…
`<<<END>>>` with `<`-free interior segments — the search-replace pattern
matches, capturing exactly the path, search and replace texts and resuming
after `<<<END>>>`, while the overwrite pattern does not match at the block:
such a block contributes exactly one operation, of kind search-replace.
(The universal claim, over all well-formed blocks, fails on single-line
blocks — see the counterexample.) -/
theorem file_block_with_search_yields_single_sr (p x y rest : List Char)
    (hpne : p ≠ [])
    (hp : ∀ c ∈ p, wsChar c = false ∧ c ≠ '>')
    (hx : ∀ c ∈ x, c ≠ '<') (hy : ∀ c ∈ y, c ≠ '<') :
    matchSRAt (fileMark ++ ' ' ::
      (p ++ '>' :: '>' :: '>' :: '\n' :: (searchMark ++
        (x ++ (replaceMark ++ (y ++ (endMark ++ rest))))))) =
      some ({ type := .searchReplace, file := trimL p,
              search := trimL x, replace := trimL y }, rest) ∧
    matchOvrAt (fileMark ++ ' ' ::
      (p ++ '>' :: '>' :: '>' :: '\n' :: (searchMark ++
        (x ++ (replaceMark ++ (y ++ (endMark ++ rest))))))) = none :=
  ⟨matchSRAt_canonical p x y rest hpne hp hx hy,
   matchOvrAt_canonical_none p _ hp⟩

/-- Witness for C10 at the block `<<<FILE: a>>>\n<<<SEARCH>>>x`
`<<<REPLACE>>>y<<<END>>>`. -/
theorem file_block_with_search_yields_single_sr_witness :
    matchSRAt (fileMark ++ ' ' ::
      (['a'] ++ '>' :: '>' :: '>' :: '\n' :: (searchMark ++
        (['x'] ++ (replaceMark ++ (['y'] ++ (endMark ++ []))))))) =
      some ({ type := .searchReplace, file := some ['a'],
              search := some ['x'], replace := some ['y'] }, []) ∧
    matchOvrAt (fileMark ++ ' ' ::
      (['a'] ++ '>' :: '>' :: '>' :: '\n' :: (searchMark ++
        (['x'] ++ (replaceMark ++ (['y'] ++ (endMark ++ []))))))) = none :=
  file_block_with_search_yields_single_sr ['a'] ['x'] ['y'] []
    (by decide) (by decide) (by decide) (by decide)

end InspectorDiffon
